import Mathlib

/-!
Shallow embedding of the reptation Monte Carlo simulation engine
(src/services/SimulationEngine.ts).  Each `Math.random()` call of the source
is modelled by consuming one value from an explicit stream of natural-number
draws: `Math.floor(Math.random() * n)` becomes `r % n`, which ranges over
exactly the values the source can produce.  The occupancy `Map` is modelled
as an association list with the same set/get/delete semantics; site keys are
the coordinate pairs themselves (the source's string key `x,y` is injective
on coordinates).  All number arithmetic performed by the source on these
quantities is exact integer or rational arithmetic, and is modelled by
`Nat`/`Int`/`ℚ`; the two square-root display statistics (`rmsEndToEnd`,
`radiusOfGyration` and their means), which no claim mentions, are omitted
from the statistics record.
-/

namespace ReptationMC

/-- A lattice site: the integer coordinate pair used as occupancy key. -/
abbrev Point := Nat × Nat

/-- A polymer chain: the ordered list of its segment sites. -/
abbrev PolymerChain := List Point

/-- The occupancy ledger: an association list from site to count,
mirroring the source's `Map<string, number>`. -/
abbrev Occ := List (Point × Nat)

/-- The simulation parameters of the source's `SimulationParams`. -/
structure SimulationParams where
  latticeSize : Nat
  numChains : Nat
  chainLength : Nat
  maxSteps : Nat
  obstacleConcentration : ℚ

/-- The mutable fields of the `SimulationEngine` instance. -/
structure SimState where
  params : SimulationParams
  chains : List PolymerChain
  initialR0 : List (Int × Int)
  initialR0SquaredSum : Int
  obstacles : List Point
  occupied : Occ
  steps : Nat
  successfulMoves : Nat

/-- One pseudo-random draw below a bound: the model of
`Math.floor(Math.random() * n)`, consuming one stream element. -/
def draw (s : List Nat) (n : Nat) : Nat × List Nat :=
  match s with
  | [] => (0, [])
  | r :: t => (if n = 0 then 0 else r % n, t)

/-- Lookup in the occupancy map, `this.occupied.get(key) || 0`. -/
def occGet : Occ → Point → Nat
  | [], _ => 0
  | (q, n) :: t, p => if q = p then n else occGet t p

/-- Update in the occupancy map, `this.occupied.set(key, v)`. -/
def occSet : Occ → Point → Nat → Occ
  | [], p, v => [(p, v)]
  | (q, n) :: t, p, v => if q = p then (p, v) :: t else (q, n) :: occSet t p v

/-- Deletion from the occupancy map, `this.occupied.delete(key)`. -/
def occDelete : Occ → Point → Occ
  | [], _ => []
  | (q, n) :: t, p => if q = p then t else (q, n) :: occDelete t p

/-- Key-presence test, `this.occupied.has(key)`. -/
def occHasKey : Occ → Point → Bool
  | [], _ => false
  | (q, _) :: t, p => if q = p then true else occHasKey t p

/-- Source `incrementOccupancy`. -/
def incrementOccupancy (occ : Occ) (p : Point) : Occ :=
  occSet occ p (occGet occ p + 1)

/-- Source `decrementOccupancy`: a count at most 1 removes the key. -/
def decrementOccupancy (occ : Occ) (p : Point) : Occ :=
  if occGet occ p ≤ 1 then occDelete occ p else occSet occ p (occGet occ p - 1)

/-- Source `isSiteOccupied`: obstacle membership or ledger key presence. -/
def isSiteOccupied (obst : List Point) (occ : Occ) (p : Point) : Bool :=
  decide (p ∈ obst) || occHasKey occ p

/-- Source `getNeighbors`: the four periodic neighbors; the source's
`(x - 1 + L) % L` on coordinates in `[0, L)` is `(x + L - 1) % L`. -/
def getNeighbors (L : Nat) (p : Point) : List Point :=
  [((p.1 + 1) % L, p.2), ((p.1 + L - 1) % L, p.2),
   (p.1, (p.2 + 1) % L), (p.1, (p.2 + L - 1) % L)]

/-- One bond delta with the source's minimum-image correction per axis. -/
def unwrapDelta (L : Nat) (p1 p2 : Point) : Int × Int :=
  let dx : Int := (p2.1 : Int) - (p1.1 : Int)
  let dy : Int := (p2.2 : Int) - (p1.2 : Int)
  (if 1 < dx then dx - L else if dx < -1 then dx + L else dx,
   if 1 < dy then dy - L else if dy < -1 then dy + L else dy)

/-- Source `getUnwrappedEndToEnd`: the sum of corrected bond deltas over
consecutive segment pairs. -/
def getUnwrappedEndToEnd (L : Nat) : PolymerChain → Int × Int
  | p1 :: p2 :: rest =>
    let d := unwrapDelta L p1 p2
    let r := getUnwrappedEndToEnd L (p2 :: rest)
    (d.1 + r.1, d.2 + r.2)
  | _ => (0, 0)

/-- The obstacle-placement rejection-sampling loop of `reset`.  The source
loops until the target count is reached; the model returns early if the
draw stream is exhausted. -/
def placeObstacles (L target : Nat) : List Point → List Nat → List Point × List Nat
  | obst, r1 :: r2 :: rest =>
    if obst.length < target then
      let x := if L = 0 then 0 else r1 % L
      let y := if L = 0 then 0 else r2 % L
      if (x, y) ∈ obst then placeObstacles L target obst rest
      else placeObstacles L target ((x, y) :: obst) rest
    else (obst, r1 :: r2 :: rest)
  | obst, s => (obst, s)

/-- The inner growth loop of `reset`: extend the reversed partial chain
(`rev`, most recent segment first) by `k` further segments, drawing each
from the unblocked neighbors of the last segment; returns the partial
chain, a success flag, the ledger and the remaining stream. -/
def growChain (L : Nat) (obst : List Point) :
    Occ → List Point → Nat → List Nat → List Point × Bool × Occ × List Nat
  | occ, rev, 0, s => (rev, true, occ, s)
  | occ, rev, k + 1, s =>
    match rev with
    | [] => ([], false, occ, s)
    | last :: r =>
      let nbrs := (getNeighbors L last).filter (fun p => !isSiteOccupied obst occ p)
      if nbrs.length = 0 then (last :: r, false, occ, s)
      else
        let d := draw s nbrs.length
        growChain L obst (incrementOccupancy occ (nbrs.getD d.1 (0, 0)))
          (nbrs.getD d.1 (0, 0) :: last :: r) k d.2

/-- The rollback of a failed growth attempt: decrement every placed segment. -/
def rollbackOcc (occ : Occ) (l : List Point) : Occ :=
  l.foldl (fun o p => decrementOccupancy o p) occ

/-- One growth attempt of the per-chain retry loop in `reset`: draw a start
site (always consuming two draws), bail out if it is blocked, otherwise grow
to the target length; commit on full length, roll back otherwise. -/
def attemptChain (params : SimulationParams) (obst : List Point) (occ : Occ)
    (s : List Nat) : Option PolymerChain × Occ × List Nat :=
  let L := params.latticeSize
  let dx := draw s L
  let dy := draw dx.2 L
  let start : Point := (dx.1, dy.1)
  if isSiteOccupied obst occ start then (none, occ, dy.2)
  else
    let g := growChain L obst (incrementOccupancy occ start) [start]
      (params.chainLength - 1) dy.2
    if g.2.1 = true ∧ g.1.length = params.chainLength
    then (some g.1.reverse, g.2.2.1, g.2.2.2)
    else (none, rollbackOcc g.2.2.1 g.1, g.2.2.2)

/-- The bounded retry loop (200 attempts in the source) for one chain slot. -/
def tryPlace (params : SimulationParams) (obst : List Point) :
    Nat → Occ → List Nat → Option PolymerChain × Occ × List Nat
  | 0, occ, s => (none, occ, s)
  | a + 1, occ, s =>
    match attemptChain params obst occ s with
    | (some c, occ', s') => (some c, occ', s')
    | (none, occ', s') => tryPlace params obst a occ' s'

/-- The chain-population loop of `reset`: one retry budget per chain slot;
a slot whose budget is exhausted is skipped. -/
def buildChains (params : SimulationParams) (obst : List Point) :
    Nat → List PolymerChain → Occ → List Nat →
    List PolymerChain × Occ × List Nat
  | 0, acc, occ, s => (acc, occ, s)
  | n + 1, acc, occ, s =>
    match tryPlace params obst 200 occ s with
    | (some c, occ', s') => buildChains params obst n (acc ++ [c]) occ' s'
    | (none, occ', s') => buildChains params obst n acc occ' s'

/-- Source `reset`: clear all state, place obstacles, grow the population,
and capture the initial end-to-end snapshot. -/
def reset (params : SimulationParams) (s : List Nat) : SimState :=
  let L := params.latticeSize
  let target := (((L * L : Nat) : ℚ) * params.obstacleConcentration).floor.toNat
  let po := placeObstacles L target [] s
  let bc := buildChains params po.1 params.numChains [] [] po.2
  let r0s := bc.1.map (getUnwrappedEndToEnd L)
  { params := params
    chains := bc.1
    initialR0 := r0s
    initialR0SquaredSum := (r0s.map (fun v => v.1 * v.1 + v.2 * v.2)).sum
    obstacles := po.1
    occupied := bc.2.1
    steps := 0
    successfulMoves := 0 }

/-- The body of `reset` with the obstacle target count precomputed; used to
evaluate `reset` at concrete inputs, since kernel reduction cannot unfold
the rational floor expression directly. -/
def resetWithTarget (params : SimulationParams) (t : Nat) (s : List Nat) :
    SimState :=
  let L := params.latticeSize
  let po := placeObstacles L t [] s
  let bc := buildChains params po.1 params.numChains [] [] po.2
  let r0s := bc.1.map (getUnwrappedEndToEnd L)
  { params := params
    chains := bc.1
    initialR0 := r0s
    initialR0SquaredSum := (r0s.map (fun v => v.1 * v.1 + v.2 * v.2)).sum
    obstacles := po.1
    occupied := bc.2.1
    steps := 0
    successfulMoves := 0 }

/-- The filter predicate of `reptate`: a neighbor is a valid destination iff
it is not an obstacle and is either empty or is the vacating end's site with
ledger count exactly 1. -/
def isValidDest (obst : List Point) (occ : Occ) (tailPos p : Point) : Bool :=
  if p ∈ obst then false
  else if occGet occ p = 0 then true
  else if p = tailPos ∧ occGet occ p = 1 then true
  else false

/-- Source `reptate`: one move attempt, parameterized by the draw stream
(chain index, end coin, destination index). -/
def reptate (st : SimState) (s : List Nat) : SimState × List Nat :=
  if st.chains.length = 0 then (st, s)
  else
    let d1 := draw s st.chains.length
    let chain := st.chains.getD d1.1 []
    let d2 := draw d1.2 2
    let headPos := if d2.1 = 0 then chain.headD (0, 0) else chain.getLastD (0, 0)
    let tailPos := if d2.1 = 0 then chain.getLastD (0, 0) else chain.headD (0, 0)
    let validMoves := (getNeighbors st.params.latticeSize headPos).filter
      (fun p => isValidDest st.obstacles st.occupied tailPos p)
    if validMoves.length = 0 then (st, d2.2)
    else
      let d3 := draw d2.2 validMoves.length
      let nextPos := validMoves.getD d3.1 (0, 0)
      let newChain := if d2.1 = 0 then (nextPos :: chain).dropLast
                      else (chain ++ [nextPos]).tail
      ({ st with
          chains := st.chains.set d1.1 newChain
          occupied := incrementOccupancy (decrementOccupancy st.occupied tailPos) nextPos
          successfulMoves := st.successfulMoves + 1 }, d3.2)

/-- Iterate `reptate` a fixed number of times, threading the stream. -/
def reptateN : Nat → SimState → List Nat → SimState × List Nat
  | 0, st, s => (st, s)
  | n + 1, st, s =>
    let r := reptate st s
    reptateN n r.1 r.2

/-- Source `step`: a no-op at the step budget, otherwise `max 1 numChains`
move attempts followed by one step-counter increment. -/
def stepSim (st : SimState) (s : List Nat) : SimState :=
  if st.params.maxSteps ≤ st.steps then st
  else
    let r := reptateN (max 1 st.params.numChains) st s
    { r.1 with steps := r.1.steps + 1 }

/-- The exact-valued fields of the source's `SimulationStats` record. -/
structure SimulationStats where
  steps : Nat
  successfulMoves : Nat
  acceptanceRatio : ℚ
  autocorrelation : ℚ
  rawAutocorrelation : ℚ
  isFinished : Bool

/-- Source `getStats`, restricted to the exact-valued fields. -/
def getStats (st : SimState) : SimulationStats :=
  let L := st.params.latticeSize
  let sumDotProduct : Int :=
    ((st.chains.zip st.initialR0).map
      (fun q =>
        let r := getUnwrappedEndToEnd L q.1
        r.1 * q.2.1 + r.2 * q.2.2)).sum
  let N : ℚ := if st.chains.length = 0 then 1 else (st.chains.length : ℚ)
  let avgDot : ℚ := (sumDotProduct : ℚ) / N
  let initialAvgR2 : ℚ :=
    if ((st.initialR0SquaredSum : ℚ) / N) = 0 then 1
    else (st.initialR0SquaredSum : ℚ) / N
  { steps := st.steps
    successfulMoves := st.successfulMoves
    acceptanceRatio :=
      if 0 < st.steps then (st.successfulMoves : ℚ) / ((st.steps : ℚ) * N) else 0
    autocorrelation := avgDot / initialAvgR2
    rawAutocorrelation := avgDot
    isFinished := decide (st.params.maxSteps ≤ st.steps) }

/-- The states reachable from a fresh initialization by stepping, each
stage driven by an arbitrary draw stream. -/
inductive Reachable (params : SimulationParams) : SimState → Prop
  | init (s : List Nat) : Reachable params (reset params s)
  | step {st : SimState} (h : Reachable params st) (s : List Nat) :
      Reachable params (stepSim st s)

/-- The number of (chain, index) pairs of the population residing at a site. -/
def segCount : List PolymerChain → Point → Nat
  | [], _ => 0
  | c :: cs, p => c.count p + segCount cs p

/-- Well-formedness of the occupancy association list: keys are distinct and
every stored count is positive (the source removes keys that reach zero). -/
def OccWF (occ : Occ) : Prop :=
  (occ.map Prod.fst).Nodup ∧ ∀ e ∈ occ, 0 < e.2

/-- A site-count evolution that only fills empty sites up to count one,
used to propagate the at-most-one-segment-per-site property. -/
def OccStep (occ occ' : Occ) : Prop :=
  ∀ p, occGet occ' p = occGet occ p ∨ (occGet occ p = 0 ∧ occGet occ' p = 1)

/-- The inductive invariant tying the population to the ledger: a
well-formed ledger whose counts agree with segment counts, at most one
segment per site, and every chain of full length, nonempty, adjacency
consistent, obstacle free and inside the lattice window. -/
def PopOk (L N : Nat) (obst : List Point) (chains : List PolymerChain)
    (occ : Occ) : Prop :=
  OccWF occ ∧
  (∀ p, occGet occ p = segCount chains p) ∧
  (∀ p, segCount chains p ≤ 1) ∧
  ∀ c ∈ chains, c.length = N ∧ c ≠ [] ∧
    List.Chain' (fun a b => b ∈ getNeighbors L a) c ∧
    ∀ p ∈ c, p ∉ obst ∧ p.1 < L ∧ p.2 < L

/-- The full inductive invariant of a simulation state. -/
def Inv (st : SimState) : Prop :=
  PopOk st.params.latticeSize st.params.chainLength st.obstacles st.chains
    st.occupied ∧
  st.successfulMoves ≤ st.steps * max 1 st.params.numChains

/-- The concrete state of the tail re-entry scenario: a 3-segment chain at
(1,1)-(2,1)-(3,1) on the 10 by 10 obstacle-free torus, its ledger holding
exactly those three sites. -/
def scenarioTailReentry : SimState :=
  { params := ⟨10, 1, 3, 100, 0⟩
    chains := [[(1, 1), (2, 1), (3, 1)]]
    initialR0 := [(2, 0)]
    initialR0SquaredSum := 4
    obstacles := []
    occupied := [((1, 1), 1), ((2, 1), 1), ((3, 1), 1)]
    steps := 0
    successfulMoves := 0 }

/-- The chain index drawn by a `reptate` attempt. -/
def reptCi (st : SimState) (r1 : Nat) : Nat := r1 % st.chains.length

/-- The chain selected by a `reptate` attempt. -/
def reptChain (st : SimState) (r1 : Nat) : PolymerChain :=
  st.chains.getD (reptCi st r1) []

/-- The active end of a `reptate` attempt. -/
def reptAct (st : SimState) (r1 r2 : Nat) : Point :=
  if r2 % 2 = 0 then (reptChain st r1).headD (0, 0)
  else (reptChain st r1).getLastD (0, 0)

/-- The vacating end of a `reptate` attempt. -/
def reptVac (st : SimState) (r1 r2 : Nat) : Point :=
  if r2 % 2 = 0 then (reptChain st r1).getLastD (0, 0)
  else (reptChain st r1).headD (0, 0)

/-- The valid-move list of a `reptate` attempt. -/
def reptMoves (st : SimState) (r1 r2 : Nat) : List Point :=
  (getNeighbors st.params.latticeSize (reptAct st r1 r2)).filter
    (fun p => isValidDest st.obstacles st.occupied (reptVac st r1 r2) p)

section OccLemmas

theorem draw_lt {s : List Nat} {n : Nat} (h : n ≠ 0) : (draw s n).1 < n := by
  cases s with
  | nil => simpa [draw] using Nat.pos_of_ne_zero h
  | cons r t => simp [draw, h, Nat.mod_lt _ (Nat.pos_of_ne_zero h)]

theorem occGet_occSet (occ : Occ) (p : Point) (v : Nat) (q : Point) :
    occGet (occSet occ p v) q = if p = q then v else occGet occ q := by
  induction occ with
  | nil => by_cases h : p = q <;> simp [occSet, occGet, h]
  | cons e t ih =>
    obtain ⟨a, n⟩ := e
    by_cases hap : a = p
    · subst hap
      by_cases h : a = q <;> simp [occSet, occGet, h]
    · by_cases h : a = q
      · subst h
        have : ¬ p = a := fun hc => hap hc.symm
        simp [occSet, occGet, hap, this]
      · simp [occSet, occGet, hap, h, ih]

theorem occGet_eq_zero_of_not_mem {occ : Occ} {p : Point}
    (h : p ∉ occ.map Prod.fst) : occGet occ p = 0 := by
  induction occ with
  | nil => rfl
  | cons e t ih =>
    obtain ⟨a, n⟩ := e
    simp only [List.map_cons, List.mem_cons] at h
    push_neg at h
    have : a ≠ p := fun hc => h.1 hc.symm
    simp [occGet, this, ih h.2]

theorem occDelete_sublist (occ : Occ) (p : Point) :
    List.Sublist (occDelete occ p) occ := by
  induction occ with
  | nil => simp [occDelete]
  | cons e t ih =>
    obtain ⟨a, n⟩ := e
    by_cases h : a = p
    · subst h
      simp only [occDelete, if_pos rfl]
      exact List.sublist_cons_self _ t
    · simp only [occDelete, h, if_false]
      exact ih.cons₂ (a, n)

theorem occGet_occDelete (occ : Occ) (p q : Point)
    (h : (occ.map Prod.fst).Nodup) :
    occGet (occDelete occ p) q = if p = q then 0 else occGet occ q := by
  induction occ with
  | nil => by_cases hpq : p = q <;> simp [occDelete, occGet, hpq]
  | cons e t ih =>
    obtain ⟨a, n⟩ := e
    simp only [List.map_cons, List.nodup_cons] at h
    by_cases hap : a = p
    · subst hap
      by_cases hpq : a = q
      · subst hpq
        simp [occDelete, occGet, occGet_eq_zero_of_not_mem h.1]
      · simp [occDelete, occGet, hpq]
    · by_cases haq : a = q
      · subst haq
        have hpq : ¬ p = a := fun hc => hap hc.symm
        simp [occDelete, occGet, hap, hpq]
      · simp [occDelete, occGet, hap, haq, ih h.2]

theorem mem_keys_occSet (occ : Occ) (p : Point) (v : Nat) (q : Point) :
    q ∈ (occSet occ p v).map Prod.fst ↔ q = p ∨ q ∈ occ.map Prod.fst := by
  induction occ with
  | nil => simp [occSet]
  | cons e t ih =>
    obtain ⟨a, n⟩ := e
    by_cases hap : a = p
    · subst hap
      simp [occSet]
    · simp only [occSet, hap, if_false, List.map_cons, List.mem_cons, ih]
      tauto

theorem nodup_keys_occSet (occ : Occ) (p : Point) (v : Nat)
    (h : (occ.map Prod.fst).Nodup) :
    ((occSet occ p v).map Prod.fst).Nodup := by
  induction occ with
  | nil => simp [occSet]
  | cons e t ih =>
    obtain ⟨a, n⟩ := e
    simp only [List.map_cons, List.nodup_cons] at h
    by_cases hap : a = p
    · subst hap
      simp [occSet, List.nodup_cons, h.1, h.2]
    · simp only [occSet, hap, if_false, List.map_cons, List.nodup_cons]
      refine ⟨fun hc => ?_, ih h.2⟩
      rcases (mem_keys_occSet t p v a).mp hc with h1 | h1
      · exact hap h1
      · exact h.1 h1

theorem mem_occSet {occ : Occ} {p : Point} {v : Nat} {e : Point × Nat}
    (h : e ∈ occSet occ p v) : e = (p, v) ∨ e ∈ occ := by
  induction occ with
  | nil => simpa [occSet] using h
  | cons a t ih =>
    obtain ⟨b, n⟩ := a
    by_cases hbp : b = p
    · subst hbp
      rcases (by simpa [occSet] using h : e = (b, v) ∨ e ∈ t) with h1 | h1
      · exact Or.inl h1
      · exact Or.inr (List.mem_cons_of_mem _ h1)
    · rcases (by simpa [occSet, hbp] using h : e = (b, n) ∨ e ∈ occSet t p v)
        with h1 | h1
      · exact Or.inr (by simp [h1])
      · rcases ih h1 with h2 | h2
        · exact Or.inl h2
        · exact Or.inr (List.mem_cons_of_mem _ h2)

theorem occWF_increment {occ : Occ} (h : OccWF occ) (p : Point) :
    OccWF (incrementOccupancy occ p) := by
  refine ⟨nodup_keys_occSet occ p _ h.1, fun e he => ?_⟩
  rcases mem_occSet he with h1 | h1
  · subst h1; exact Nat.succ_pos _
  · exact h.2 e h1

theorem occWF_decrement {occ : Occ} (h : OccWF occ) (p : Point) :
    OccWF (decrementOccupancy occ p) := by
  unfold decrementOccupancy
  by_cases hc : occGet occ p ≤ 1
  · simp only [hc, if_true]
    refine ⟨(List.Sublist.map Prod.fst (occDelete_sublist occ p)).nodup h.1,
      fun e he => h.2 e ((occDelete_sublist occ p).mem he)⟩
  · simp only [hc, if_false]
    refine ⟨nodup_keys_occSet occ p _ h.1, fun e he => ?_⟩
    rcases mem_occSet he with h1 | h1
    · subst h1; omega
    · exact h.2 e h1

theorem occGet_increment (occ : Occ) (p q : Point) :
    occGet (incrementOccupancy occ p) q =
      occGet occ q + if p = q then 1 else 0 := by
  unfold incrementOccupancy
  rw [occGet_occSet]
  by_cases h : p = q
  · subst h; simp
  · simp [h]

theorem occGet_decrement (occ : Occ) (p q : Point)
    (h : (occ.map Prod.fst).Nodup) :
    occGet (decrementOccupancy occ p) q =
      occGet occ q - if p = q then 1 else 0 := by
  unfold decrementOccupancy
  by_cases hc : occGet occ p ≤ 1
  · simp only [hc, if_true]
    rw [occGet_occDelete occ p q h]
    by_cases hpq : p = q
    · subst hpq; simp; omega
    · simp [hpq]
  · simp only [hc, if_false]
    rw [occGet_occSet]
    by_cases hpq : p = q
    · subst hpq; simp
    · simp [hpq]

theorem occHasKey_eq_mem_keys (occ : Occ) (p : Point) :
    occHasKey occ p = true ↔ p ∈ occ.map Prod.fst := by
  induction occ with
  | nil => simp [occHasKey]
  | cons e t ih =>
    obtain ⟨a, n⟩ := e
    by_cases h : a = p
    · subst h; simp [occHasKey]
    · have : ¬ p = a := fun hc => h hc.symm
      simp [occHasKey, h, this, ih]

theorem occHasKey_iff_occGet_pos {occ : Occ} (h : ∀ e ∈ occ, 0 < e.2)
    (p : Point) : occHasKey occ p = true ↔ 0 < occGet occ p := by
  induction occ with
  | nil => simp [occHasKey, occGet]
  | cons e t ih =>
    obtain ⟨a, n⟩ := e
    by_cases hap : a = p
    · subst hap
      simpa [occHasKey, occGet] using h (a, n) (by simp)
    · have ht : ∀ e ∈ t, 0 < e.2 := fun e he => h e (List.mem_cons_of_mem _ he)
      simp [occHasKey, occGet, hap, ih ht]

theorem occGet_eq_zero_of_not_hasKey {occ : Occ} (h : ∀ e ∈ occ, 0 < e.2)
    {p : Point} (hk : occHasKey occ p = false) : occGet occ p = 0 := by
  by_contra hne
  have := (occHasKey_iff_occGet_pos h p).mpr (Nat.pos_of_ne_zero hne)
  rw [hk] at this
  exact Bool.false_ne_true this

end OccLemmas

section CountLemmas

theorem segCount_append (l1 l2 : List PolymerChain) (p : Point) :
    segCount (l1 ++ l2) p = segCount l1 p + segCount l2 p := by
  induction l1 with
  | nil => simp [segCount]
  | cons c t ih => simp [segCount, ih]; omega

theorem count_le_segCount {c : PolymerChain} {cs : List PolymerChain}
    (h : c ∈ cs) (p : Point) : c.count p ≤ segCount cs p := by
  induction cs with
  | nil => simp at h
  | cons d t ih =>
    rcases List.mem_cons.mp h with h1 | h1
    · subst h1; simp [segCount]
    · have := ih h1
      simp [segCount]; omega

theorem mem_of_segCount_pos {cs : List PolymerChain} {p : Point}
    (h : 0 < segCount cs p) : ∃ c ∈ cs, p ∈ c := by
  induction cs with
  | nil => simp [segCount] at h
  | cons d t ih =>
    by_cases hd : 0 < d.count p
    · exact ⟨d, by simp, List.count_pos_iff.mp hd⟩
    · have : 0 < segCount t p := by
        simp only [segCount] at h; omega
      obtain ⟨c, hc, hpc⟩ := ih this
      exact ⟨c, by simp [hc], hpc⟩

theorem segCount_set (cs : List PolymerChain) (i : Nat) (c' : PolymerChain)
    (p : Point) (hi : i < cs.length) :
    segCount (cs.set i c') p + (cs.getD i []).count p =
      segCount cs p + c'.count p := by
  induction cs generalizing i with
  | nil => simp at hi
  | cons d t ih =>
    cases i with
    | zero => simp [segCount, List.set]; omega
    | succ j =>
      have hj : j < t.length := by simpa using hi
      have := ih j hj
      simp only [List.set, segCount, List.getD_cons_succ]
      omega

theorem occGet_rollbackOcc (l : List Point) :
    ∀ (occ : Occ), OccWF occ →
      OccWF (rollbackOcc occ l) ∧
      ∀ p, occGet (rollbackOcc occ l) p = occGet occ p - l.count p := by
  induction l with
  | nil => intro occ h; simpa [rollbackOcc] using h
  | cons q t ih =>
    intro occ h
    have h1 : OccWF (decrementOccupancy occ q) := occWF_decrement h q
    obtain ⟨hwf, hget⟩ := ih (decrementOccupancy occ q) h1
    have hstep : rollbackOcc occ (q :: t) = rollbackOcc (decrementOccupancy occ q) t := by
      simp [rollbackOcc]
    refine ⟨by rw [hstep]; exact hwf, fun p => ?_⟩
    rw [hstep, hget p, occGet_decrement occ q p h.1, List.count_cons]
    by_cases hqp : q = p
    · subst hqp; simp; omega
    · have : ¬ p = q := fun hc => hqp hc.symm
      simp [hqp, this]

theorem occStep_refl (occ : Occ) : OccStep occ occ := fun _ => Or.inl rfl

theorem occStep_trans {a b c : Occ} (h1 : OccStep a b) (h2 : OccStep b c) :
    OccStep a c := by
  intro p
  rcases h2 p with h2p | ⟨h2p, h2q⟩
  · rcases h1 p with h1p | ⟨h1p, h1q⟩
    · exact Or.inl (h2p.trans h1p)
    · exact Or.inr ⟨h1p, h2p.trans h1q⟩
  · rcases h1 p with h1p | ⟨h1p, h1q⟩
    · exact Or.inr ⟨h1p.symm.trans h2p, h2q⟩
    · rw [h1q] at h2p; cases h2p

theorem occStep_le_one {a b : Occ} (h : OccStep a b) {p : Point}
    (ha : occGet a p ≤ 1) : occGet b p ≤ 1 := by
  rcases h p with h1 | ⟨_, h2⟩
  · omega
  · omega

theorem occStep_increment {occ : Occ} {p : Point} (h : occGet occ p = 0) :
    OccStep occ (incrementOccupancy occ p) := by
  intro q
  rw [occGet_increment]
  by_cases hpq : p = q
  · subst hpq
    rw [if_pos rfl]
    exact Or.inr ⟨h, by omega⟩
  · simp [hpq]

end CountLemmas

section ListHelpers

theorem headD_of_ne_nil {α : Type} (l : List α) (h : l ≠ []) (d : α) :
    l.headD d = l.head h := by
  cases l with
  | nil => exact absurd rfl h
  | cons a t => rfl

theorem getLastD_of_ne_nil {α : Type} :
    ∀ (l : List α) (h : l ≠ []) (d : α), l.getLastD d = l.getLast h := by
  intro l
  induction l with
  | nil => intro h; exact absurd rfl h
  | cons a t ih =>
    intro h d
    cases t with
    | nil => rfl
    | cons b u =>
      have := ih (by simp) a
      simp only [List.getLastD_cons, this]
      rfl

theorem head_ne_getLast_of_nodup {α : Type} (l : List α) (h : l ≠ [])
    (hn : l.Nodup) (hl : 2 ≤ l.length) :
    l.head h ≠ l.getLast h := by
  cases l with
  | nil => exact absurd rfl h
  | cons a t =>
    cases t with
    | nil => simp at hl
    | cons b u =>
      intro hc
      have h2 : (b :: u) ≠ [] := by simp
      rw [List.head_cons, List.getLast_cons h2] at hc
      have hmem : (b :: u).getLast h2 ∈ b :: u := List.getLast_mem h2
      rw [← hc] at hmem
      exact (List.nodup_cons.mp hn).1 hmem

theorem getD_mem_of_lt {α : Type} [Inhabited α] (l : List α) (i : Nat)
    (d : α) (h : i < l.length) : l.getD i d ∈ l := by
  rw [List.getD_eq_getElem l d h]
  exact List.getElem_mem h

end ListHelpers

theorem reset_eq_withTarget (params : SimulationParams) (s : List Nat)
    (t : Nat)
    (ht : (((params.latticeSize * params.latticeSize : Nat) : ℚ) *
      params.obstacleConcentration).floor.toNat = t) :
    reset params s = resetWithTarget params t s := by
  simp only [reset, resetWithTarget]
  rw [ht]

theorem target_zero_of_conc_zero (L : Nat) :
    (((L * L : Nat) : ℚ) * (0 : ℚ)).floor.toNat = 0 := by
  have h : (((L * L : Nat) : ℚ) * (0 : ℚ)) = 0 := by norm_num
  rw [h, Rat.floor_def']
  norm_num

section NeighborLemmas

theorem mod_succ_pred (L x : Nat) (hL : 1 ≤ L) (hx : x < L) :
    ((x + 1) % L + L - 1) % L = x := by
  have h1 : (x + 1) % L + L - 1 = (x + 1) % L + (L - 1) := by omega
  rw [h1, Nat.mod_add_mod]
  have h2 : x + 1 + (L - 1) = x + L := by omega
  rw [h2, Nat.add_mod_right, Nat.mod_eq_of_lt hx]

theorem mod_pred_succ (L x : Nat) (hL : 1 ≤ L) (hx : x < L) :
    ((x + L - 1) % L + 1) % L = x := by
  rw [Nat.mod_add_mod]
  have h2 : x + L - 1 + 1 = x + L := by omega
  rw [h2, Nat.add_mod_right, Nat.mod_eq_of_lt hx]

theorem getNeighbors_coords {L : Nat} (hL : 1 ≤ L) {a b : Point}
    (ha1 : a.1 < L) (ha2 : a.2 < L) (hb : b ∈ getNeighbors L a) :
    b.1 < L ∧ b.2 < L := by
  have hpos : 0 < L := hL
  simp only [getNeighbors, List.mem_cons, List.not_mem_nil, or_false] at hb
  rcases hb with h | h | h | h <;> subst h <;>
    exact ⟨by simp [Nat.mod_lt _ hpos, ha1], by simp [Nat.mod_lt _ hpos, ha2]⟩

theorem getNeighbors_symm {L : Nat} (hL : 1 ≤ L) {a b : Point}
    (ha1 : a.1 < L) (ha2 : a.2 < L) (hb : b ∈ getNeighbors L a) :
    a ∈ getNeighbors L b := by
  obtain ⟨ax, ay⟩ := a
  simp only at ha1 ha2
  simp only [getNeighbors, List.mem_cons, List.not_mem_nil, or_false] at hb ⊢
  rcases hb with h | h | h | h <;> subst h
  · refine Or.inr (Or.inl ?_)
    simp [mod_succ_pred L ax hL ha1]
  · refine Or.inl ?_
    simp [mod_pred_succ L ax hL ha1]
  · refine Or.inr (Or.inr (Or.inr ?_))
    simp [mod_succ_pred L ay hL ha2]
  · refine Or.inr (Or.inr (Or.inl ?_))
    simp [mod_pred_succ L ay hL ha2]

end NeighborLemmas

section GrowthLemmas

theorem growChain_spec (L : Nat) (obst : List Point) (hL : 1 ≤ L) :
    ∀ (k : Nat) (occ : Occ) (rev : List Point) (s : List Nat),
      OccWF occ → rev ≠ [] → (∀ p ∈ rev, p.1 < L ∧ p.2 < L) →
      OccWF (growChain L obst occ rev k s).2.2.1 ∧
      OccStep occ (growChain L obst occ rev k s).2.2.1 ∧
      (growChain L obst occ rev k s).1 ≠ [] ∧
      (∀ p ∈ (growChain L obst occ rev k s).1, p.1 < L ∧ p.2 < L) ∧
      (∃ news : List Point,
        (growChain L obst occ rev k s).1 = news ++ rev ∧
        (∀ p, occGet (growChain L obst occ rev k s).2.2.1 p =
          occGet occ p + news.count p) ∧
        ∀ p ∈ news, p ∉ obst) ∧
      (List.Chain' (fun a b => a ∈ getNeighbors L b) rev →
        List.Chain' (fun a b => a ∈ getNeighbors L b)
          (growChain L obst occ rev k s).1) ∧
      ((growChain L obst occ rev k s).2.1 = true →
        (growChain L obst occ rev k s).1.length = rev.length + k) := by
  intro k
  induction k with
  | zero =>
    intro occ rev s hwf hne hcoords
    have hstep : growChain L obst occ rev 0 s = (rev, true, occ, s) := rfl
    rw [hstep]
    exact ⟨hwf, occStep_refl occ, hne, hcoords, ⟨[], by simp, fun p => by simp,
      by simp⟩, fun h => h, fun _ => by simp⟩
  | succ k ih =>
    intro occ rev s hwf hne hcoords
    obtain ⟨last, r, rfl⟩ : ∃ last r, rev = last :: r := by
      cases rev with
      | nil => exact absurd rfl hne
      | cons a t => exact ⟨a, t, rfl⟩
    by_cases hn : ((getNeighbors L last).filter
        (fun p => !isSiteOccupied obst occ p)).length = 0
    · have hstep : growChain L obst occ (last :: r) (k + 1) s =
          (last :: r, false, occ, s) := by
        simp only [growChain, hn, if_pos]
      rw [hstep]
      exact ⟨hwf, occStep_refl occ, hne, hcoords, ⟨[], by simp, fun p => by simp,
        by simp⟩, fun h => h, fun hok => by simp at hok⟩
    · set nbrs := (getNeighbors L last).filter
        (fun p => !isSiteOccupied obst occ p) with hnbrs
      set next := nbrs.getD (draw s nbrs.length).1 (0, 0) with hnext
      have hstep : growChain L obst occ (last :: r) (k + 1) s =
          growChain L obst (incrementOccupancy occ next)
            (next :: last :: r) k (draw s nbrs.length).2 := by
        simp only [growChain, hn, if_neg, ← hnbrs, ← hnext]
        rfl
      have hdlt : (draw s nbrs.length).1 < nbrs.length := draw_lt hn
      have hnext_mem : next ∈ nbrs := getD_mem_of_lt nbrs _ (0, 0) hdlt
      have hfilter := List.mem_filter.mp (hnbrs ▸ hnext_mem)
      have hnb : next ∈ getNeighbors L last := hfilter.1
      have hfree : isSiteOccupied obst occ next = false := by
        have := hfilter.2
        simpa using this
      have hobst : next ∉ obst := by
        have := congrArg (fun b => b) hfree
        simp only [isSiteOccupied, Bool.or_eq_false_iff] at hfree
        simpa using hfree.1
      have hkey : occGet occ next = 0 := by
        simp only [isSiteOccupied, Bool.or_eq_false_iff] at hfree
        exact occGet_eq_zero_of_not_hasKey hwf.2 hfree.2
      have hlast_coords := hcoords last (by simp)
      have hnext_coords : next.1 < L ∧ next.2 < L :=
        getNeighbors_coords hL hlast_coords.1 hlast_coords.2 hnb
      have hcoords1 : ∀ p ∈ next :: last :: r, p.1 < L ∧ p.2 < L := by
        intro p hp
        rcases List.mem_cons.mp hp with h1 | h1
        · subst h1; exact hnext_coords
        · exact hcoords p h1
      obtain ⟨ihwf, ihstep, ihne, ihcoords, ⟨news, hnews_eq, hnews_get,
        hnews_obst⟩, ihchain, ihlen⟩ :=
        ih (incrementOccupancy occ next) (next :: last :: r)
          (draw s nbrs.length).2 (occWF_increment hwf next) (by simp) hcoords1
      rw [hstep]
      refine ⟨ihwf, occStep_trans (occStep_increment hkey) ihstep, ihne,
        ihcoords, ⟨news ++ [next], ?_, ?_, ?_⟩, ?_, ?_⟩
      · rw [hnews_eq]
        simp
      · intro p
        rw [hnews_get p, occGet_increment, List.count_append]
        by_cases hnp : next = p
        · subst hnp; simp; omega
        · have : ¬ p = next := fun hc => hnp hc.symm
          simp [hnp, this]
      · intro p hp
        rcases List.mem_append.mp hp with h1 | h1
        · exact hnews_obst p h1
        · rw [List.mem_singleton.mp h1]; exact hobst
      · intro hch
        exact ihchain (List.Chain'.cons hnb hch)
      · intro hok
        rw [ihlen hok]
        simp
        omega

end GrowthLemmas

section AttemptLemmas

theorem attemptChain_none {params : SimulationParams} {obst : List Point}
    {occ : Occ} {s : List Nat} {occ' : Occ} {s' : List Nat}
    (heq : attemptChain params obst occ s = (none, occ', s'))
    (hwf : OccWF occ) (hL : 1 ≤ params.latticeSize) :
    OccWF occ' ∧ ∀ p, occGet occ' p = occGet occ p := by
  unfold attemptChain at heq
  set L := params.latticeSize with hLdef
  set start : Point := ((draw s L).1, (draw (draw s L).2 L).1) with hstart
  by_cases hocc : isSiteOccupied obst occ start = true
  · rw [if_pos hocc] at heq
    obtain ⟨rfl, rfl⟩ : occ = occ' ∧ (draw (draw s L).2 L).2 = s' := by
      simpa using heq
    exact ⟨hwf, fun p => rfl⟩
  · rw [if_neg hocc] at heq
    have hfree : isSiteOccupied obst occ start = false :=
      Bool.not_eq_true _ ▸ Bool.of_not_eq_true hocc
    have hkey : occGet occ start = 0 := by
      simp only [isSiteOccupied, Bool.or_eq_false_iff] at hfree
      exact occGet_eq_zero_of_not_hasKey hwf.2 hfree.2
    have hstart1 : start.1 < L := draw_lt (by omega)
    have hstart2 : start.2 < L := draw_lt (by omega)
    obtain ⟨gwf, gstep, gne, gcoords, ⟨news, gnews_eq, gnews_get, gnews_obst⟩,
      gchain, glen⟩ :=
      growChain_spec L obst hL (params.chainLength - 1)
        (incrementOccupancy occ start) [start] (draw (draw s L).2 L).2
        (occWF_increment hwf start) (by simp)
        (by intro p hp; rw [List.mem_singleton.mp hp]; exact ⟨hstart1, hstart2⟩)
    set g := growChain L obst (incrementOccupancy occ start) [start]
      (params.chainLength - 1) (draw (draw s L).2 L).2 with hg
    by_cases hcommit : g.2.1 = true ∧ g.1.length = params.chainLength
    · rw [if_pos hcommit] at heq
      simp at heq
    · rw [if_neg hcommit] at heq
      obtain ⟨rfl, rfl⟩ : rollbackOcc g.2.2.1 g.1 = occ' ∧ g.2.2.2 = s' := by
        simpa using heq
      obtain ⟨rwf, rget⟩ := occGet_rollbackOcc g.1 g.2.2.1 gwf
      refine ⟨rwf, fun p => ?_⟩
      rw [rget p, gnews_get p, occGet_increment, gnews_eq, List.count_append]
      by_cases hsp : start = p
      · subst hsp; simp; omega
      · have : ¬ p = start := fun hc => hsp hc.symm
        simp [hsp, this]

theorem attemptChain_some {params : SimulationParams} {obst : List Point}
    {occ : Occ} {s : List Nat} {c : PolymerChain} {occ' : Occ} {s' : List Nat}
    (heq : attemptChain params obst occ s = (some c, occ', s'))
    (hwf : OccWF occ) (hL : 1 ≤ params.latticeSize) :
    OccWF occ' ∧ OccStep occ occ' ∧ c.length = params.chainLength ∧ c ≠ [] ∧
    (∀ p, occGet occ' p = occGet occ p + c.count p) ∧
    (∀ p ∈ c, p ∉ obst ∧ p.1 < params.latticeSize ∧
      p.2 < params.latticeSize) ∧
    List.Chain' (fun a b => b ∈ getNeighbors params.latticeSize a) c := by
  unfold attemptChain at heq
  set L := params.latticeSize with hLdef
  set start : Point := ((draw s L).1, (draw (draw s L).2 L).1) with hstart
  by_cases hocc : isSiteOccupied obst occ start = true
  · rw [if_pos hocc] at heq
    simp at heq
  · rw [if_neg hocc] at heq
    have hfree : isSiteOccupied obst occ start = false :=
      Bool.not_eq_true _ ▸ Bool.of_not_eq_true hocc
    have hobst : start ∉ obst := by
      simp only [isSiteOccupied, Bool.or_eq_false_iff] at hfree
      simpa using hfree.1
    have hkey : occGet occ start = 0 := by
      simp only [isSiteOccupied, Bool.or_eq_false_iff] at hfree
      exact occGet_eq_zero_of_not_hasKey hwf.2 hfree.2
    have hstart1 : start.1 < L := draw_lt (by omega)
    have hstart2 : start.2 < L := draw_lt (by omega)
    obtain ⟨gwf, gstep, gne, gcoords, ⟨news, gnews_eq, gnews_get, gnews_obst⟩,
      gchain, glen⟩ :=
      growChain_spec L obst hL (params.chainLength - 1)
        (incrementOccupancy occ start) [start] (draw (draw s L).2 L).2
        (occWF_increment hwf start) (by simp)
        (by intro p hp; rw [List.mem_singleton.mp hp]; exact ⟨hstart1, hstart2⟩)
    set g := growChain L obst (incrementOccupancy occ start) [start]
      (params.chainLength - 1) (draw (draw s L).2 L).2 with hg
    by_cases hcommit : g.2.1 = true ∧ g.1.length = params.chainLength
    · rw [if_pos hcommit] at heq
      obtain ⟨h1, h2⟩ : g.1.reverse = c ∧ g.2.2 = (occ', s') := by
        simpa using heq
      obtain ⟨rfl, rfl, rfl⟩ : g.1.reverse = c ∧ g.2.2.1 = occ' ∧ g.2.2.2 = s' :=
        ⟨h1, by rw [h2], by rw [h2]⟩
      refine ⟨gwf, occStep_trans (occStep_increment hkey) gstep,
        by simpa using hcommit.2, by simpa using gne, fun p => ?_, ?_, ?_⟩
      · rw [gnews_get p, occGet_increment, List.count_reverse, gnews_eq,
          List.count_append]
        by_cases hsp : start = p
        · subst hsp; simp; omega
        · have : ¬ p = start := fun hc => hsp hc.symm
          simp [hsp, this]
      · intro p hp
        rw [List.mem_reverse] at hp
        refine ⟨?_, gcoords p hp⟩
        rw [gnews_eq] at hp
        rcases List.mem_append.mp hp with h1 | h1
        · exact gnews_obst p h1
        · rw [List.mem_singleton.mp h1]; exact hobst
      · have hrev := gchain (List.chain'_singleton start)
        rw [← List.reverse_reverse g.1] at hrev
        rw [List.chain'_reverse] at hrev
        exact hrev
    · rw [if_neg hcommit] at heq
      simp at heq

end AttemptLemmas

section BuildLemmas

theorem tryPlace_none {params : SimulationParams} {obst : List Point} :
    ∀ {a : Nat} {occ : Occ} {s : List Nat} {occ' : Occ} {s' : List Nat},
      tryPlace params obst a occ s = (none, occ', s') → OccWF occ →
      1 ≤ params.latticeSize →
      OccWF occ' ∧ ∀ p, occGet occ' p = occGet occ p := by
  intro a
  induction a with
  | zero =>
    intro occ s occ' s' heq hwf hL
    obtain ⟨rfl, rfl⟩ : occ = occ' ∧ s = s' := by
      simpa [tryPlace] using heq
    exact ⟨hwf, fun p => rfl⟩
  | succ a ih =>
    intro occ s occ' s' heq hwf hL
    rcases hres : attemptChain params obst occ s with ⟨res, o2, s2⟩
    cases res with
    | some c =>
      rw [tryPlace, hres] at heq
      simp at heq
    | none =>
      rw [tryPlace, hres] at heq
      obtain ⟨hwf2, hget2⟩ := attemptChain_none hres hwf hL
      obtain ⟨hwf3, hget3⟩ := ih heq hwf2 hL
      exact ⟨hwf3, fun p => (hget3 p).trans (hget2 p)⟩

theorem tryPlace_some {params : SimulationParams} {obst : List Point} :
    ∀ {a : Nat} {occ : Occ} {s : List Nat} {c : PolymerChain} {occ' : Occ}
      {s' : List Nat},
      tryPlace params obst a occ s = (some c, occ', s') → OccWF occ →
      1 ≤ params.latticeSize →
      OccWF occ' ∧ OccStep occ occ' ∧ c.length = params.chainLength ∧
      c ≠ [] ∧
      (∀ p, occGet occ' p = occGet occ p + c.count p) ∧
      (∀ p ∈ c, p ∉ obst ∧ p.1 < params.latticeSize ∧
        p.2 < params.latticeSize) ∧
      List.Chain' (fun a b => b ∈ getNeighbors params.latticeSize a) c := by
  intro a
  induction a with
  | zero =>
    intro occ s c occ' s' heq hwf hL
    simp [tryPlace] at heq
  | succ a ih =>
    intro occ s c occ' s' heq hwf hL
    rcases hres : attemptChain params obst occ s with ⟨res, o2, s2⟩
    cases res with
    | some c0 =>
      rw [tryPlace, hres] at heq
      obtain ⟨rfl, rfl, rfl⟩ : c0 = c ∧ o2 = occ' ∧ s2 = s' := by
        simpa using heq
      exact attemptChain_some hres hwf hL
    | none =>
      rw [tryPlace, hres] at heq
      obtain ⟨hwf2, hget2⟩ := attemptChain_none hres hwf hL
      obtain ⟨hwf3, hstep3, hlen, hne, hget3, hmem, hch⟩ := ih heq hwf2 hL
      refine ⟨hwf3, ?_, hlen, hne, fun p => ?_, hmem, hch⟩
      · exact occStep_trans (fun p => Or.inl (hget2 p)) hstep3
      · rw [hget3 p, hget2 p]

theorem buildChains_popOk {params : SimulationParams} {obst : List Point} :
    ∀ (n : Nat) (acc : List PolymerChain) (occ : Occ) (s : List Nat),
      PopOk params.latticeSize params.chainLength obst acc occ →
      1 ≤ params.latticeSize →
      PopOk params.latticeSize params.chainLength obst
        (buildChains params obst n acc occ s).1
        (buildChains params obst n acc occ s).2.1 := by
  intro n
  induction n with
  | zero =>
    intro acc occ s hpop hL
    simpa [buildChains] using hpop
  | succ n ih =>
    intro acc occ s hpop hL
    obtain ⟨hwf, hagree, hle, hchains⟩ := hpop
    rcases hres : tryPlace params obst 200 occ s with ⟨res, o2, s2⟩
    cases res with
    | none =>
      rw [buildChains, hres]
      obtain ⟨hwf2, hget2⟩ := tryPlace_none hres hwf hL
      exact ih acc o2 s2
        ⟨hwf2, fun p => (hget2 p).trans (hagree p), hle, hchains⟩ hL
    | some c =>
      rw [buildChains, hres]
      obtain ⟨hwf2, hstep2, hlen, hne, hget2, hmem, hch⟩ :=
        tryPlace_some hres hwf hL
      refine ih (acc ++ [c]) o2 s2 ⟨hwf2, fun p => ?_, fun p => ?_, ?_⟩ hL
      · rw [hget2 p, hagree p, segCount_append]
        simp [segCount]
      · have h1 : occGet o2 p ≤ 1 :=
          occStep_le_one hstep2 (by rw [hagree p]; exact hle p)
        have h2 := hget2 p
        have h3 := hagree p
        rw [segCount_append]
        simp only [segCount]
        omega
      · intro c' hc'
        rcases List.mem_append.mp hc' with h1 | h1
        · exact hchains c' h1
        · rw [List.mem_singleton.mp h1]
          exact ⟨hlen, hne, hch, hmem⟩

theorem reset_inv (params : SimulationParams) (s : List Nat)
    (hL : 1 ≤ params.latticeSize) : Inv (reset params s) := by
  have hbase : PopOk params.latticeSize params.chainLength
      (placeObstacles params.latticeSize
        ((((params.latticeSize * params.latticeSize : Nat) : ℚ) *
          params.obstacleConcentration).floor.toNat) [] s).1 [] [] := by
    refine ⟨⟨by simp, by simp⟩, fun p => rfl, fun p => by simp [segCount],
      by simp⟩
  constructor
  · exact buildChains_popOk params.numChains [] [] _ hbase hL
  · simp [reset]

end BuildLemmas

section MoveShapeLemmas

theorem chain'_dropLast {α : Type} {R : α → α → Prop} :
    ∀ {l : List α}, List.Chain' R l → List.Chain' R l.dropLast := by
  intro l
  induction l with
  | nil => simp
  | cons a t ih =>
    intro h
    cases t with
    | nil => simp
    | cons b u =>
      rw [List.dropLast_cons₂]
      rcases List.chain'_cons'.mp h with ⟨hab, ht⟩
      refine List.chain'_cons'.mpr ⟨?_, ih ht⟩
      intro y hy
      cases u with
      | nil => simp at hy
      | cons c' v =>
        rw [List.dropLast_cons₂] at hy
        simp only [List.head?_cons, Option.mem_def, Option.some.injEq] at hy
        subst hy
        exact hab b (by simp)

theorem mem_of_mem_dropLast {α : Type} {l : List α} {p : α}
    (h : p ∈ l.dropLast) : p ∈ l := by
  induction l with
  | nil => simp at h
  | cons a t ih =>
    cases t with
    | nil => simp at h
    | cons b u =>
      rw [List.dropLast_cons₂] at h
      rcases List.mem_cons.mp h with h1 | h1
      · simp [h1]
      · exact List.mem_cons_of_mem _ (ih h1)

theorem headMove_dropLast {next : Point} {c : PolymerChain} (h : c ≠ []) :
    (next :: c).dropLast = next :: c.dropLast := by
  cases c with
  | nil => exact absurd rfl h
  | cons a t => exact List.dropLast_cons₂

theorem count_dropLast_add (c : PolymerChain) (h : c ≠ []) (p : Point) :
    c.dropLast.count p + (if c.getLast h = p then 1 else 0) = c.count p := by
  conv_rhs => rw [← List.dropLast_append_getLast h]
  rw [List.count_append]
  simp [List.count_cons]

theorem headMove_count (c : PolymerChain) (h : c ≠ []) (next p : Point) :
    (next :: c).dropLast.count p + (if c.getLast h = p then 1 else 0) =
      c.count p + (if next = p then 1 else 0) := by
  rw [headMove_dropLast h, ← count_dropLast_add c h p]
  simp only [List.count_cons]
  by_cases h1 : next = p <;> by_cases h2 : c.getLast h = p <;>
    simp [h1, h2] <;> omega

theorem tailMove_count (hd : Point) (tl : List Point) (next p : Point) :
    (tl ++ [next]).count p + (if hd = p then 1 else 0) =
      (hd :: tl).count p + (if next = p then 1 else 0) := by
  rw [List.count_append]
  simp only [List.count_cons, List.count_nil]
  by_cases h1 : next = p <;> by_cases h2 : hd = p <;> simp [h1, h2] <;> omega

theorem isValidDest_true_iff (obst : List Point) (occ : Occ) (t p : Point) :
    isValidDest obst occ t p = true ↔
      p ∉ obst ∧ (occGet occ p = 0 ∨ (p = t ∧ occGet occ p = 1)) := by
  unfold isValidDest
  split_ifs with h1 h2 h3
  · simp [h1]
  · simp [h1, h2]
  · obtain ⟨hpt, hocc1⟩ := h3
    subst hpt
    simp [h1, hocc1]
  · constructor
    · intro h
      exact absurd h (by simp)
    · rintro ⟨-, h4 | h4⟩
      · exact absurd h4 h2
      · exact absurd h4 h3

end MoveShapeLemmas

section MoveLemmas

theorem movedChain_popOk {L N : Nat} {obst : List Point}
    {chains : List PolymerChain} {occ : Occ}
    (hpop : PopOk L N obst chains occ)
    {ci : Nat} (hci : ci < chains.length)
    {vac next : Point} {newChain : PolymerChain}
    (hvac_mem : vac ∈ chains.getD ci [])
    (hnobst : next ∉ obst)
    (hncoords : next.1 < L ∧ next.2 < L)
    (hvcases : occGet occ next = 0 ∨ (next = vac ∧ occGet occ next = 1))
    (hcount : ∀ p, newChain.count p + (if vac = p then 1 else 0) =
      (chains.getD ci []).count p + (if next = p then 1 else 0))
    (hlen_new : newChain.length = (chains.getD ci []).length)
    (hmem_new : ∀ p ∈ newChain, p = next ∨ p ∈ chains.getD ci [])
    (hch_new : List.Chain' (fun a b => b ∈ getNeighbors L a) newChain) :
    PopOk L N obst (chains.set ci newChain)
      (incrementOccupancy (decrementOccupancy occ vac) next) := by
  obtain ⟨hwf, hagree, hle, hchains⟩ := hpop
  have hcmem : chains.getD ci [] ∈ chains := getD_mem_of_lt chains ci [] hci
  obtain ⟨hclen, hcne, hcch, hcmemf⟩ := hchains _ hcmem
  have hvac_ge1 : 1 ≤ occGet occ vac := by
    rw [hagree vac]
    calc 1 ≤ (chains.getD ci []).count vac := List.count_pos_iff.mpr hvac_mem
      _ ≤ segCount chains vac := count_le_segCount hcmem vac
  have hocc2 : ∀ p,
      occGet (incrementOccupancy (decrementOccupancy occ vac) next) p +
        (if vac = p then 1 else 0) =
      occGet occ p + (if next = p then 1 else 0) := by
    intro p
    rw [occGet_increment, occGet_decrement occ vac p hwf.1]
    have hge := hvac_ge1
    by_cases h1 : vac = p
    · by_cases h2 : next = p
      · simp only [h1, h2, eq_self_iff_true, if_true] at hge ⊢
        omega
      · simp only [h1, h2, eq_self_iff_true, if_true, if_false] at hge ⊢
        omega
    · by_cases h2 : next = p
      · simp only [h1, h2, eq_self_iff_true, if_true, if_false]
        omega
      · simp only [h1, h2, if_false]
        omega
  refine ⟨occWF_increment (occWF_decrement ⟨hwf.1, hwf.2⟩ vac) next,
    fun p => ?_, fun p => ?_, fun c' hc' => ?_⟩
  · have e1 := hocc2 p
    have e2 := segCount_set chains ci newChain p hci
    have e3 := hcount p
    have e4 := hagree p
    by_cases h1 : vac = p
    · by_cases h2 : next = p
      · simp only [h1, h2, eq_self_iff_true, if_true] at e1 e3 ⊢
        omega
      · simp only [h1, h2, eq_self_iff_true, if_true, if_false] at e1 e3 ⊢
        omega
    · by_cases h2 : next = p
      · simp only [h1, h2, eq_self_iff_true, if_true, if_false] at e1 e3 ⊢
        omega
      · simp only [h1, h2, if_false] at e1 e3 ⊢
        omega
  · have e2 := segCount_set chains ci newChain p hci
    have e3 := hcount p
    have e5 := hle p
    have e6 := count_le_segCount hcmem p
    have e4 := hagree p
    by_cases h2 : next = p
    · rcases hvcases with hv0 | ⟨hveq, hv1⟩
      · rw [h2] at hv0
        by_cases h1 : vac = p
        · simp only [h1, h2, eq_self_iff_true, if_true] at e3
          omega
        · simp only [h1, h2, eq_self_iff_true, if_true, if_false] at e3
          omega
      · have hvp : vac = p := by rw [← h2, ← hveq]
        rw [h2] at hv1
        simp only [hvp, h2, eq_self_iff_true, if_true] at e3
        omega
    · by_cases h1 : vac = p
      · have e1 := hocc2 p
        simp only [h1, h2, eq_self_iff_true, if_true, if_false] at e1 e3
        have hwf2 : OccWF (incrementOccupancy (decrementOccupancy occ vac) next) :=
          occWF_increment (occWF_decrement ⟨hwf.1, hwf.2⟩ vac) next
        omega
      · simp only [h1, h2, if_false] at e3
        omega
  · rcases List.mem_or_eq_of_mem_set hc' with h1 | h1
    · exact hchains c' h1
    · rw [h1]
      refine ⟨by rw [hlen_new, hclen], ?_, hch_new, ?_⟩
      · have hpos : 0 < newChain.length := by
          rw [hlen_new]
          exact List.length_pos.mpr hcne
        exact List.ne_nil_of_length_pos hpos
      · intro p hp
        rcases hmem_new p hp with h2 | h2
        · rw [h2]
          exact ⟨hnobst, hncoords⟩
        · exact hcmemf p h2

theorem reptate_spec (st : SimState) (s : List Nat)
    (hL : 1 ≤ st.params.latticeSize)
    (hpop : PopOk st.params.latticeSize st.params.chainLength st.obstacles
      st.chains st.occupied) :
    (reptate st s).1.params = st.params ∧
    (reptate st s).1.obstacles = st.obstacles ∧
    (reptate st s).1.steps = st.steps ∧
    (reptate st s).1.initialR0 = st.initialR0 ∧
    (reptate st s).1.initialR0SquaredSum = st.initialR0SquaredSum ∧
    (reptate st s).1.successfulMoves ≤ st.successfulMoves + 1 ∧
    PopOk st.params.latticeSize st.params.chainLength st.obstacles
      (reptate st s).1.chains (reptate st s).1.occupied := by
  by_cases hlen : st.chains.length = 0
  · have hr : reptate st s = (st, s) := by
      unfold reptate
      rw [if_pos hlen]
    rw [hr]
    exact ⟨rfl, rfl, rfl, rfl, rfl, Nat.le_succ _, hpop⟩
  · simp only [reptate]
    rw [if_neg hlen]
    have hci_lt : (draw s st.chains.length).1 < st.chains.length := draw_lt hlen
    set ci := (draw s st.chains.length).1 with hci_def
    set chain := st.chains.getD ci [] with hchain_def
    have hchain_mem : chain ∈ st.chains := getD_mem_of_lt _ _ _ hci_lt
    obtain ⟨hclen, hcne, hcch, hcmemf⟩ := hpop.2.2.2 chain hchain_mem
    set coin := (draw (draw s st.chains.length).2 2).1 with hcoin_def
    set headPos := if coin = 0 then chain.headD (0, 0) else chain.getLastD (0, 0)
      with hhp_def
    set tailPos := if coin = 0 then chain.getLastD (0, 0) else chain.headD (0, 0)
      with htp_def
    set vm := (getNeighbors st.params.latticeSize headPos).filter
      (fun p => isValidDest st.obstacles st.occupied tailPos p) with hvm_def
    by_cases hvm0 : vm.length = 0
    · rw [if_pos hvm0]
      exact ⟨rfl, rfl, rfl, rfl, rfl, Nat.le_succ _, hpop⟩
    · rw [if_neg hvm0]
      refine ⟨rfl, rfl, rfl, rfl, rfl, Nat.le_refl _, ?_⟩
      set nextPos := vm.getD (draw (draw (draw s st.chains.length).2 2).2
        vm.length).1 (0, 0) with hnp_def
    -- membership and validity facts for the chosen destination
      have hnext_vm : nextPos ∈ vm :=
        getD_mem_of_lt vm _ (0, 0) (draw_lt hvm0)
      rw [hvm_def] at hnext_vm
      have hfil := List.mem_filter.mp hnext_vm
      have hnb : nextPos ∈ getNeighbors st.params.latticeSize headPos := hfil.1
      have hvalid :=
        (isValidDest_true_iff st.obstacles st.occupied tailPos nextPos).mp hfil.2
      have hnobst : nextPos ∉ st.obstacles := hvalid.1
      have hvcases := hvalid.2
      have hhead_mem : headPos ∈ chain := by
        by_cases hcoin : coin = 0
        · rw [hhp_def, if_pos hcoin, headD_of_ne_nil chain hcne]
          exact List.head_mem hcne
        · rw [hhp_def, if_neg hcoin, getLastD_of_ne_nil chain hcne]
          exact List.getLast_mem hcne
      have hhead_coords := (hcmemf headPos hhead_mem).2
      have hncoords :
          nextPos.1 < st.params.latticeSize ∧
          nextPos.2 < st.params.latticeSize :=
        getNeighbors_coords hL hhead_coords.1 hhead_coords.2 hnb
      by_cases hcoin : coin = 0
      · rw [if_pos hcoin]
        have htp : tailPos = chain.getLast hcne := by
          rw [htp_def, if_pos hcoin, getLastD_of_ne_nil chain hcne]
        have hhp : headPos = chain.head hcne := by
          rw [hhp_def, if_pos hcoin, headD_of_ne_nil chain hcne]
        refine movedChain_popOk hpop hci_lt ?_ hnobst hncoords hvcases
          ?_ ?_ ?_ ?_
        · rw [htp]
          exact List.getLast_mem hcne
        · intro p
          rw [htp]
          exact headMove_count chain hcne nextPos p
        · show ((nextPos :: chain).dropLast).length = chain.length
          rw [headMove_dropLast hcne]
          have hp1 := List.length_pos.mpr hcne
          simp only [List.length_cons, List.length_dropLast]
          omega
        · intro p hp
          rw [headMove_dropLast hcne] at hp
          rcases List.mem_cons.mp hp with h1 | h1
          · exact Or.inl h1
          · exact Or.inr (mem_of_mem_dropLast h1)
        · rw [headMove_dropLast hcne]
          refine List.chain'_cons'.mpr ⟨?_, chain'_dropLast hcch⟩
          intro y hy
          obtain ⟨a, t, hat⟩ := List.exists_cons_of_ne_nil hcne
          have hhp2 : headPos = a := by
            rw [hhp_def, if_pos hcoin, hat]
            rfl
          have hya : y = a := by
            rw [hat] at hy
            cases t with
            | nil => simp at hy
            | cons b u =>
              rw [List.dropLast_cons₂] at hy
              simp only [List.head?_cons, Option.mem_def,
                Option.some.injEq] at hy
              exact hy.symm
          rw [hya, ← hhp2]
          exact getNeighbors_symm hL hhead_coords.1 hhead_coords.2 hnb
      · rw [if_neg hcoin]
        obtain ⟨hd, tl, hht⟩ := List.exists_cons_of_ne_nil hcne
        have htp : tailPos = hd := by
          rw [htp_def, if_neg hcoin, hht]
          rfl
        have hhp : headPos = chain.getLastD (0, 0) := by
          rw [hhp_def, if_neg hcoin]
        have htail_eq : (chain ++ [nextPos]).tail = tl ++ [nextPos] := by
          rw [hht]
          rfl
        refine movedChain_popOk hpop hci_lt ?_ hnobst hncoords hvcases
          ?_ ?_ ?_ ?_
        · rw [htp, ← hchain_def, hht]
          exact List.mem_cons_self hd tl
        · intro p
          rw [htail_eq, htp]
          have := tailMove_count hd tl nextPos p
          rw [← hht] at this
          exact this
        · rw [htail_eq, ← hchain_def, hht]
          simp
        · intro p hp
          rw [htail_eq] at hp
          rcases List.mem_append.mp hp with h1 | h1
          · exact Or.inr (by rw [← hchain_def, hht]; exact List.mem_cons_of_mem hd h1)
          · exact Or.inl (List.mem_singleton.mp h1)
        · rw [htail_eq]
          have hcch2 : List.Chain'
              (fun a b => b ∈ getNeighbors st.params.latticeSize a)
              (hd :: tl) := by rw [← hht]; exact hcch
          refine List.chain'_append.mpr
            ⟨(List.chain'_cons'.mp hcch2).2, List.chain'_singleton nextPos, ?_⟩
          intro x hx y hy
          simp only [List.head?_cons, Option.mem_def, Option.some.injEq] at hy
          subst hy
          have htl_ne : tl ≠ [] := by
            intro hnil
            rw [hnil] at hx
            simp at hx
          have hx_last : x = tl.getLast htl_ne := by
            rw [List.getLast?_eq_getLast tl htl_ne] at hx
            simpa using hx.symm
          have hlast_eq : headPos = tl.getLast htl_ne := by
            rw [hhp, hht, List.getLastD_cons]
            exact getLastD_of_ne_nil tl htl_ne hd
          rw [hx_last, ← hlast_eq]
          exact hnb

theorem reptateN_spec :
    ∀ (n : Nat) (st : SimState) (s : List Nat),
      1 ≤ st.params.latticeSize →
      PopOk st.params.latticeSize st.params.chainLength st.obstacles
        st.chains st.occupied →
      (reptateN n st s).1.params = st.params ∧
      (reptateN n st s).1.obstacles = st.obstacles ∧
      (reptateN n st s).1.steps = st.steps ∧
      (reptateN n st s).1.initialR0 = st.initialR0 ∧
      (reptateN n st s).1.initialR0SquaredSum = st.initialR0SquaredSum ∧
      (reptateN n st s).1.successfulMoves ≤ st.successfulMoves + n ∧
      PopOk st.params.latticeSize st.params.chainLength st.obstacles
        (reptateN n st s).1.chains (reptateN n st s).1.occupied := by
  intro n
  induction n with
  | zero =>
    intro st s hL hpop
    exact ⟨rfl, rfl, rfl, rfl, rfl, Nat.le_refl _, hpop⟩
  | succ n ih =>
    intro st s hL hpop
    obtain ⟨r1p, r1o, r1s, r1i, r1q, r1m, r1pop⟩ := reptate_spec st s hL hpop
    have hstep : reptateN (n + 1) st s =
        reptateN n (reptate st s).1 (reptate st s).2 := rfl
    rw [hstep]
    have hL1 : 1 ≤ (reptate st s).1.params.latticeSize := by rw [r1p]; exact hL
    have hpop1 : PopOk (reptate st s).1.params.latticeSize
        (reptate st s).1.params.chainLength (reptate st s).1.obstacles
        (reptate st s).1.chains (reptate st s).1.occupied := by
      rw [r1p, r1o]
      exact r1pop
    obtain ⟨i1, i2, i3, i4, i5, i6, i7⟩ :=
      ih (reptate st s).1 (reptate st s).2 hL1 hpop1
    refine ⟨i1.trans r1p, i2.trans r1o, i3.trans r1s, i4.trans r1i,
      i5.trans r1q, by omega, ?_⟩
    rw [r1p, r1o] at i7
    exact i7

theorem stepSim_inv (st : SimState) (s : List Nat)
    (hL : 1 ≤ st.params.latticeSize) (hinv : Inv st) :
    (stepSim st s).params = st.params ∧ Inv (stepSim st s) := by
  unfold stepSim
  by_cases hmax : st.params.maxSteps ≤ st.steps
  · rw [if_pos hmax]
    exact ⟨rfl, hinv⟩
  · rw [if_neg hmax]
    obtain ⟨hpop, hcnt⟩ := hinv
    obtain ⟨i1, i2, i3, i4, i5, i6, i7⟩ :=
      reptateN_spec (max 1 st.params.numChains) st s hL hpop
    refine ⟨i1, ?_, ?_⟩
    · unfold PopOk at i7 ⊢
      simp only [i1, i2]
      exact i7
    · simp only [i1, i3]
      have : st.successfulMoves ≤ st.steps * max 1 st.params.numChains := hcnt
      calc (reptateN (max 1 st.params.numChains) st s).1.successfulMoves
        ≤ st.successfulMoves + max 1 st.params.numChains := i6
        _ ≤ st.steps * max 1 st.params.numChains + max 1 st.params.numChains := by
            omega
        _ = (st.steps + 1) * max 1 st.params.numChains := by ring

theorem reachable_inv {params : SimulationParams} {st : SimState}
    (h : Reachable params st) (hL : 1 ≤ params.latticeSize) :
    st.params = params ∧ Inv st := by
  induction h with
  | init s => exact ⟨rfl, reset_inv params s hL⟩
  | step hr s ih =>
    obtain ⟨hp, hinv⟩ := ih
    have hL1 : 1 ≤ _ := hp ▸ hL
    obtain ⟨h1, h2⟩ := stepSim_inv _ s hL1 hinv
    exact ⟨h1.trans hp, h2⟩

end MoveLemmas

section UnwrapLemmas

theorem int_sub_modeq (a b : Int) : a - b ≡ a [ZMOD b] := by
  have h : (a - b) % b = a % b := by
    have := Int.add_mul_emod_self_left (a := a) (b := b) (c := -1)
    simpa using this
  exact h

theorem int_add_modeq (a b : Int) : a + b ≡ a [ZMOD b] := by
  have h : (a + b) % b = a % b := by
    have := Int.add_mul_emod_self_left (a := a) (b := b) (c := 1)
    simpa using this
  exact h

theorem unwrapDelta_fst_modeq (L : Nat) (p1 p2 : Point) :
    (unwrapDelta L p1 p2).1 ≡ (p2.1 : Int) - (p1.1 : Int) [ZMOD (L : Int)] := by
  simp only [unwrapDelta]
  split_ifs with h1 h2
  · exact int_sub_modeq _ _
  · exact int_add_modeq _ _
  · exact Int.ModEq.refl _

theorem unwrapDelta_snd_modeq (L : Nat) (p1 p2 : Point) :
    (unwrapDelta L p1 p2).2 ≡ (p2.2 : Int) - (p1.2 : Int) [ZMOD (L : Int)] := by
  simp only [unwrapDelta]
  split_ifs with h1 h2
  · exact int_sub_modeq _ _
  · exact int_add_modeq _ _
  · exact Int.ModEq.refl _

theorem unwrap_modeq (L : Nat) :
    ∀ (c : PolymerChain) (hne : c ≠ []),
      (getUnwrappedEndToEnd L c).1 ≡
        ((c.getLast hne).1 : Int) - ((c.head hne).1 : Int) [ZMOD (L : Int)] ∧
      (getUnwrappedEndToEnd L c).2 ≡
        ((c.getLast hne).2 : Int) - ((c.head hne).2 : Int) [ZMOD (L : Int)] := by
  intro c
  induction c with
  | nil => intro h; exact absurd rfl h
  | cons p1 t ih =>
    intro hne
    cases t with
    | nil =>
      constructor <;> simp [getUnwrappedEndToEnd] <;> exact Int.ModEq.refl 0
    | cons p2 u =>
      have hne2 : (p2 :: u) ≠ [] := by simp
      obtain ⟨ih1, ih2⟩ := ih hne2
      have hlast : (p1 :: p2 :: u).getLast hne = (p2 :: u).getLast hne2 :=
        List.getLast_cons hne2
      constructor
      · have hd := unwrapDelta_fst_modeq L p1 p2
        have hsum := Int.ModEq.add hd ih1
        simp only [List.head_cons] at hsum
        have harith :
            ((p2.1 : Int) - p1.1) + (((p2 :: u).getLast hne2).1 - p2.1) =
            ((p2 :: u).getLast hne2).1 - p1.1 := by ring
        rw [harith] at hsum
        rw [hlast]
        exact hsum
      · have hd := unwrapDelta_snd_modeq L p1 p2
        have hsum := Int.ModEq.add hd ih2
        simp only [List.head_cons] at hsum
        have harith :
            ((p2.2 : Int) - p1.2) + (((p2 :: u).getLast hne2).2 - p2.2) =
            ((p2 :: u).getLast hne2).2 - p1.2 := by ring
        rw [harith] at hsum
        rw [hlast]
        exact hsum

theorem unwrap_ne_zero {L : Nat} (hL : 1 ≤ L) {c : PolymerChain}
    (hcoords : ∀ p ∈ c, p.1 < L ∧ p.2 < L) (hnd : c.Nodup)
    (hlen : 2 ≤ c.length) : getUnwrappedEndToEnd L c ≠ (0, 0) := by
  intro h0
  have hne : c ≠ [] := by
    intro h
    rw [h] at hlen
    simp at hlen
  obtain ⟨m1, m2⟩ := unwrap_modeq L c hne
  rw [h0] at m1 m2
  have hlc := hcoords _ (List.getLast_mem hne)
  have hhc := hcoords _ (List.head_mem hne)
  have d1 : (L : Int) ∣ (((c.getLast hne).1 : Int) - ((c.head hne).1 : Int)) := by
    have := Int.ModEq.dvd m1
    simpa using this
  have d2 : (L : Int) ∣ (((c.getLast hne).2 : Int) - ((c.head hne).2 : Int)) := by
    have := Int.ModEq.dvd m2
    simpa using this
  have hb1 : |((c.getLast hne).1 : Int) - ((c.head hne).1 : Int)| < L := by
    rw [abs_lt]
    constructor <;> [skip; skip] <;> push_cast <;> omega
  have hb2 : |((c.getLast hne).2 : Int) - ((c.head hne).2 : Int)| < L := by
    rw [abs_lt]
    constructor <;> [skip; skip] <;> push_cast <;> omega
  have e1 := Int.eq_zero_of_abs_lt_dvd d1 hb1
  have e2 := Int.eq_zero_of_abs_lt_dvd d2 hb2
  have heads : c.head hne = c.getLast hne := by
    have h1 : (c.getLast hne).1 = (c.head hne).1 := by omega
    have h2 : (c.getLast hne).2 = (c.head hne).2 := by omega
    exact Prod.ext h1.symm h2.symm
  exact head_ne_getLast_of_nodup c hne hnd hlen heads

end UnwrapLemmas

section Claims

/-- C1: a neighbor `target` of the active end is a valid destination iff
`target` is not an obstacle and (its ledger count is 0, or `target` is the
vacating end's site with ledger count exactly 1); and in the concrete tail
re-entry scenario (3-chain at (1,1)-(2,1)-(3,1) on a 10 by 10 obstacle-free
torus, head move drawn to (0,1)) the move succeeds, yields
(0,1)-(1,1)-(2,1), and drops (3,1)'s ledger count to 0. -/
theorem claim_c1_valid_destination_iff_and_tail_reentry :
    (∀ (L : Nat) (obst : List Point) (occ : Occ) (active vacating target : Point),
      target ∈ (getNeighbors L active).filter
        (fun p => isValidDest obst occ vacating p) ↔
      (target ∈ getNeighbors L active ∧ target ∉ obst ∧
        (occGet occ target = 0 ∨
          (target = vacating ∧ occGet occ target = 1)))) ∧
    (reptate scenarioTailReentry [0, 0, 0]).1.chains =
      [[(0, 1), (1, 1), (2, 1)]] ∧
    occGet (reptate scenarioTailReentry [0, 0, 0]).1.occupied (3, 1) = 0 ∧
    (reptate scenarioTailReentry [0, 0, 0]).1.successfulMoves = 1 := by
  refine ⟨fun L obst occ active vacating target => ?_, by decide, by decide,
    by decide⟩
  rw [List.mem_filter, isValidDest_true_iff]

/-- C7: on a lattice of side at least 3, the unwrapped end-to-end vector of
the 2-chain (0,5)-(L-1,5) has x-component -1 (so magnitude 1, not L-1) and
y-component 0: the delta L-1 exceeds 1 and is corrected by subtracting L. -/
theorem claim_c7_unwrap_wraparound (L : Nat) (hL : 3 ≤ L) :
    (getUnwrappedEndToEnd L [(0, 5), (L - 1, 5)]).1 = -1 ∧
    (getUnwrappedEndToEnd L [(0, 5), (L - 1, 5)]).2 = 0 ∧
    (getUnwrappedEndToEnd L [(0, 5), (L - 1, 5)]).1 ≠ (L : Int) - 1 ∧
    (getUnwrappedEndToEnd L [(0, 5), (L - 1, 5)]).1 ≠ -((L : Int) - 1) := by
  have hg : getUnwrappedEndToEnd L [(0, 5), (L - 1, 5)] =
      ((unwrapDelta L (0, 5) (L - 1, 5)).1 + 0,
       (unwrapDelta L (0, 5) (L - 1, 5)).2 + 0) := rfl
  have hdx : ((L - 1 : Nat) : Int) - ((0 : Nat) : Int) = (L : Int) - 1 := by
    push_cast [Nat.cast_sub (by omega : 1 ≤ L)]
    ring
  have hd1 : (unwrapDelta L (0, 5) (L - 1, 5)).1 = -1 := by
    simp only [unwrapDelta]
    rw [if_pos]
    · rw [hdx]
      ring
    · rw [hdx]
      have : (3 : Int) ≤ (L : Int) := by exact_mod_cast hL
      omega
  have hd2 : (unwrapDelta L (0, 5) (L - 1, 5)).2 = 0 := by
    simp [unwrapDelta]
  rw [hg, hd1, hd2]
  have : (3 : Int) ≤ (L : Int) := by exact_mod_cast hL
  refine ⟨by ring, by ring, by omega, by omega⟩

/-- C7 witness: the concrete lattice size 10 instance. -/
theorem claim_c7_witness :
    (3 ≤ 10) ∧
    ((getUnwrappedEndToEnd 10 [(0, 5), (10 - 1, 5)]).1 = -1 ∧
     (getUnwrappedEndToEnd 10 [(0, 5), (10 - 1, 5)]).2 = 0 ∧
     (getUnwrappedEndToEnd 10 [(0, 5), (10 - 1, 5)]).1 ≠ (10 : Int) - 1 ∧
     (getUnwrappedEndToEnd 10 [(0, 5), (10 - 1, 5)]).1 ≠ -((10 : Int) - 1)) :=
  ⟨by decide, claim_c7_unwrap_wraparound 10 (by decide)⟩

/-- C9: the code performs no configuration validation.  At the invalid
configuration lattice size 1, chain length 1 (both below the spec's minima
of 2), construction proceeds without error and even commits a 1-segment
chain, instead of rejecting the configuration. -/
theorem claim_c9_no_validation :
    (reset ⟨1, 1, 1, 100, 0⟩ [0, 0]).chains = [[(0, 0)]] ∧
    (reset ⟨1, 1, 1, 100, 0⟩ [0, 0]).steps = 0 ∧
    (reset ⟨1, 1, 1, 100, 0⟩ [0, 0]).obstacles = [] := by
  rw [reset_eq_withTarget ⟨1, 1, 1, 100, 0⟩ [0, 0] 0 (target_zero_of_conc_zero 1)]
  refine ⟨by decide, by decide, by decide⟩

/-- C8 counterexample: with an empty population (numChains 0) and the step
budget not yet reached, a `step()` call is not a no-op: the step counter
advances from 0 to 1. -/
theorem claim_c8_counterexample :
    (reset ⟨4, 0, 2, 100, 0⟩ []).chains = [] ∧
    (stepSim (reset ⟨4, 0, 2, 100, 0⟩ []) []).steps ≠
      (reset ⟨4, 0, 2, 100, 0⟩ []).steps := by
  rw [reset_eq_withTarget ⟨4, 0, 2, 100, 0⟩ [] 0 (target_zero_of_conc_zero 4)]
  refine ⟨by decide, by decide⟩

/-- C8 amended: with an empty population, `step()` changes no simulation
state except the step counter, which still advances by one whenever the
step budget has not been reached. -/
theorem claim_c8_empty_step_amended (st : SimState) (s : List Nat)
    (h : st.chains = []) :
    (stepSim st s).chains = st.chains ∧
    (stepSim st s).occupied = st.occupied ∧
    (stepSim st s).obstacles = st.obstacles ∧
    (stepSim st s).successfulMoves = st.successfulMoves ∧
    (stepSim st s).initialR0 = st.initialR0 ∧
    (stepSim st s).initialR0SquaredSum = st.initialR0SquaredSum ∧
    (stepSim st s).params = st.params ∧
    (stepSim st s).steps =
      (if st.params.maxSteps ≤ st.steps then st.steps else st.steps + 1) := by
  have hrep : ∀ s', reptate st s' = (st, s') := by
    intro s'
    unfold reptate
    rw [if_pos (by rw [h]; rfl)]
  have hrepN : ∀ n s', reptateN n st s' = (st, s') := by
    intro n
    induction n with
    | zero => intro s'; rfl
    | succ n ih =>
      intro s'
      have : reptateN (n + 1) st s' = reptateN n (reptate st s').1
          (reptate st s').2 := rfl
      rw [this, hrep s']
      exact ih s'
  unfold stepSim
  by_cases hmax : st.params.maxSteps ≤ st.steps
  · rw [if_pos hmax, if_pos hmax]
    exact ⟨rfl, rfl, rfl, rfl, rfl, rfl, rfl, rfl⟩
  · rw [if_neg hmax, if_neg hmax]
    rw [hrepN (max 1 st.params.numChains) s]
    exact ⟨rfl, rfl, rfl, rfl, rfl, rfl, rfl, rfl⟩

/-- C8 amended witness: the empty-population instance at lattice size 4. -/
theorem claim_c8_witness :
    ((reset ⟨4, 0, 2, 100, 0⟩ []).chains = []) ∧
    ((stepSim (reset ⟨4, 0, 2, 100, 0⟩ []) []).occupied =
      (reset ⟨4, 0, 2, 100, 0⟩ []).occupied ∧
     (stepSim (reset ⟨4, 0, 2, 100, 0⟩ []) []).successfulMoves =
      (reset ⟨4, 0, 2, 100, 0⟩ []).successfulMoves) := by
  have hre := reset_eq_withTarget ⟨4, 0, 2, 100, 0⟩ [] 0 (target_zero_of_conc_zero 4)
  have h := claim_c8_empty_step_amended (reset ⟨4, 0, 2, 100, 0⟩ []) []
    (by rw [hre]; decide)
  exact ⟨by rw [hre]; decide, h.2.1, h.2.2.2.1⟩

/-- C2: in every reachable state the ledger count of every site equals the
number of (chain, index) pairs there, obstacle sites carry no positive
entry, every stored entry is positive (a count reaching 0 removes the key),
and the key set is exactly the set of sites holding at least one segment. -/
theorem claim_c2_ledger_consistency (params : SimulationParams)
    (st : SimState) (hr : Reachable params st)
    (hL : 1 ≤ params.latticeSize) :
    (∀ p, occGet st.occupied p = segCount st.chains p) ∧
    (∀ p ∈ st.obstacles, occGet st.occupied p = 0) ∧
    (∀ e ∈ st.occupied, 0 < e.2) ∧
    (∀ p, occHasKey st.occupied p = true ↔ 0 < segCount st.chains p) := by
  obtain ⟨hp, ⟨⟨hwf, hagree, hle, hchains⟩, hcnt⟩⟩ := reachable_inv hr hL
  refine ⟨hagree, ?_, hwf.2, ?_⟩
  · intro p hobs
    by_contra hne
    have hpos : 0 < occGet st.occupied p := Nat.pos_of_ne_zero hne
    rw [hagree] at hpos
    obtain ⟨c, hc, hpc⟩ := mem_of_segCount_pos hpos
    exact ((hchains c hc).2.2.2 p hpc).1 hobs
  · intro p
    rw [occHasKey_iff_occGet_pos hwf.2, hagree]

/-- C2 witness: the invariant instantiated at a freshly initialized
obstacle-free state with one 2-segment chain. -/
theorem claim_c2_witness :
    (1 ≤ (⟨4, 1, 2, 100, 0⟩ : SimulationParams).latticeSize) ∧
    ((∀ p, occGet (reset ⟨4, 1, 2, 100, 0⟩ [0, 0, 0]).occupied p =
        segCount (reset ⟨4, 1, 2, 100, 0⟩ [0, 0, 0]).chains p) ∧
     (∀ p ∈ (reset ⟨4, 1, 2, 100, 0⟩ [0, 0, 0]).obstacles,
        occGet (reset ⟨4, 1, 2, 100, 0⟩ [0, 0, 0]).occupied p = 0) ∧
     (∀ e ∈ (reset ⟨4, 1, 2, 100, 0⟩ [0, 0, 0]).occupied, 0 < e.2) ∧
     (∀ p, occHasKey (reset ⟨4, 1, 2, 100, 0⟩ [0, 0, 0]).occupied p = true ↔
        0 < segCount (reset ⟨4, 1, 2, 100, 0⟩ [0, 0, 0]).chains p)) :=
  ⟨by decide, claim_c2_ledger_consistency ⟨4, 1, 2, 100, 0⟩ _
    (Reachable.init [0, 0, 0]) (by decide)⟩

/-- C3: in every reachable state, consecutive segments of every chain are
lattice-adjacent, each being one of the other's four periodic neighbors. -/
theorem claim_c3_adjacency_invariant (params : SimulationParams)
    (st : SimState) (hr : Reachable params st)
    (hL : 1 ≤ params.latticeSize) :
    ∀ c ∈ st.chains, ∀ (i : Nat) (hi : i + 1 < c.length),
      c.get ⟨i + 1, hi⟩ ∈
        getNeighbors params.latticeSize (c.get ⟨i, Nat.lt_of_succ_lt hi⟩) ∧
      c.get ⟨i, Nat.lt_of_succ_lt hi⟩ ∈
        getNeighbors params.latticeSize (c.get ⟨i + 1, hi⟩) := by
  obtain ⟨hp, ⟨⟨hwf, hagree, hle, hchains⟩, hcnt⟩⟩ := reachable_inv hr hL
  intro c hc i hi
  obtain ⟨hclen, hcne, hcch, hcmemf⟩ := hchains c hc
  rw [← hp]
  have hL1 : 1 ≤ st.params.latticeSize := by rw [hp]; exact hL
  have h1 := List.chain'_iff_get.mp hcch i (by omega)
  refine ⟨h1, ?_⟩
  have hmem : c.get ⟨i, Nat.lt_of_succ_lt hi⟩ ∈ c := List.get_mem c _ _
  have hco := (hcmemf _ hmem).2
  exact getNeighbors_symm hL1 hco.1 hco.2 h1

/-- C3 witness: adjacency of the two segments of the single chain of a
freshly initialized state, in both directions. -/
theorem claim_c3_witness :
    (1 ≤ (⟨4, 1, 2, 100, 0⟩ : SimulationParams).latticeSize) ∧
    (((1, 0) : Point) ∈ getNeighbors 4 ((0, 0) : Point) ∧
     ((0, 0) : Point) ∈ getNeighbors 4 ((1, 0) : Point)) := by
  refine ⟨by decide, ?_⟩
  have hre := reset_eq_withTarget ⟨4, 1, 2, 100, 0⟩ [0, 0, 0] 0
    (target_zero_of_conc_zero 4)
  exact claim_c3_adjacency_invariant ⟨4, 1, 2, 100, 0⟩ _
    (Reachable.init [0, 0, 0]) (by decide) [((0, 0) : Point), (1, 0)]
    (by rw [hre]; decide) 0 (by decide)

/-- C4: in every reachable state every committed chain has exactly
`chainLength` segments: the length set at initialization is conserved by
every step. -/
theorem claim_c4_length_conservation (params : SimulationParams)
    (st : SimState) (hr : Reachable params st)
    (hL : 1 ≤ params.latticeSize) :
    ∀ c ∈ st.chains, c.length = params.chainLength := by
  obtain ⟨hp, ⟨⟨hwf, hagree, hle, hchains⟩, hcnt⟩⟩ := reachable_inv hr hL
  intro c hc
  rw [← hp]
  exact (hchains c hc).1

/-- C4 witness: the single committed chain of a fresh state has the
configured length 2. -/
theorem claim_c4_witness :
    (1 ≤ (⟨4, 1, 2, 100, 0⟩ : SimulationParams).latticeSize) ∧
    List.length [((0, 0) : Point), (1, 0)] =
      (⟨4, 1, 2, 100, 0⟩ : SimulationParams).chainLength := by
  refine ⟨by decide, ?_⟩
  have hre := reset_eq_withTarget ⟨4, 1, 2, 100, 0⟩ [0, 0, 0] 0
    (target_zero_of_conc_zero 4)
  exact claim_c4_length_conservation ⟨4, 1, 2, 100, 0⟩ _
    (Reachable.init [0, 0, 0]) (by decide) [((0, 0) : Point), (1, 0)]
    (by rw [hre]; decide)

theorem nodup_of_count_le_one :
    ∀ (l : List Point), (∀ p, l.count p ≤ 1) → l.Nodup := by
  intro l
  induction l with
  | nil => intro h; simp
  | cons a t ih =>
    intro h
    rw [List.nodup_cons]
    constructor
    · intro hmem
      have h1 := h a
      have h2 : 1 ≤ t.count a := List.count_pos_iff.mpr hmem
      have h3 : (a :: t).count a = t.count a + 1 := by
        simp [List.count_cons]
      omega
    · apply ih
      intro p
      have h1 := h p
      have h3 : t.count p ≤ (a :: t).count p := by
        by_cases hap : a = p <;> simp [List.count_cons, hap]
      omega

theorem zip_map_self {α β : Type} (g : α → β) :
    ∀ (l : List α), l.zip (l.map g) = l.map (fun a => (a, g a)) := by
  intro l
  induction l with
  | nil => rfl
  | cons a t ih => simp [ih]

theorem one_le_sq_add_sq {a b : Int} (h : a ≠ 0 ∨ b ≠ 0) :
    1 ≤ a * a + b * b := by
  rcases h with h | h
  · have h1 : 1 ≤ |a| := Int.one_le_abs h
    nlinarith [abs_mul_abs_self a, mul_self_nonneg b, abs_nonneg a]
  · have h1 : 1 ≤ |b| := Int.one_le_abs h
    nlinarith [abs_mul_abs_self b, mul_self_nonneg a, abs_nonneg b]

/-- C5 counterexample: at the spec-valid configuration lattice 2, one chain
of length 2, obstacle concentration 3/4, a draw stream exists for which all
200 growth attempts fail (the start site's four neighbors are all
obstacles), the population is empty, and the normalized autocorrelation
immediately after initialization is 0, not 1. -/
theorem claim_c5_counterexample :
    (getStats (reset ⟨2, 1, 2, 100, (3 : ℚ) / 4⟩
      ([0, 0, 1, 0, 0, 1] ++ List.replicate 400 1))).autocorrelation ≠ 1 := by
  have ht : (((2 * 2 : Nat) : ℚ) * ((3 : ℚ) / 4)).floor.toNat = 3 := by
    have h : (((2 * 2 : Nat) : ℚ) * ((3 : ℚ) / 4)) = 3 := by norm_num
    rw [h, Rat.floor_def']
    norm_num
    decide
  rw [reset_eq_withTarget ⟨2, 1, 2, 100, (3 : ℚ) / 4⟩
    ([0, 0, 1, 0, 0, 1] ++ List.replicate 400 1) 3 ht]
  have h1 : (resetWithTarget ⟨2, 1, 2, 100, (3 : ℚ) / 4⟩ 3
      ([0, 0, 1, 0, 0, 1] ++ List.replicate 400 1)).chains = [] := by decide
  have h2 : (resetWithTarget ⟨2, 1, 2, 100, (3 : ℚ) / 4⟩ 3
      ([0, 0, 1, 0, 0, 1] ++ List.replicate 400 1)).initialR0SquaredSum = 0 := by
    decide
  simp only [getStats, h1, h2]
  norm_num

/-- C5 amended: whenever the chain length is at least 2 and initialization
commits at least one chain, the normalized autocorrelation immediately
after initialization equals 1 (every committed chain then has a nonzero
initial end-to-end vector, so the summed dot product equals the summed
initial squared magnitude and the ratio is exactly 1). -/
theorem claim_c5_autocorrelation_one (params : SimulationParams)
    (s : List Nat) (hL : 1 ≤ params.latticeSize)
    (hN : 2 ≤ params.chainLength) (hne : (reset params s).chains ≠ []) :
    (getStats (reset params s)).autocorrelation = 1 := by
  obtain ⟨⟨hwf, hagree, hle, hchains⟩, hcnt⟩ := reset_inv params s hL
  set st := reset params s with hst
  have hr0 : st.initialR0 =
      st.chains.map (getUnwrappedEndToEnd params.latticeSize) := rfl
  have hS : st.initialR0SquaredSum =
      ((st.chains.map (getUnwrappedEndToEnd params.latticeSize)).map
        (fun v => v.1 * v.1 + v.2 * v.2)).sum := rfl
  have hzip : st.chains.zip st.initialR0 =
      st.chains.map (fun c => (c, getUnwrappedEndToEnd params.latticeSize c)) := by
    rw [hr0]
    exact zip_map_self _ _
  have hpos : ∀ c ∈ st.chains,
      (0 : Int) < (getUnwrappedEndToEnd params.latticeSize c).1 *
          (getUnwrappedEndToEnd params.latticeSize c).1 +
        (getUnwrappedEndToEnd params.latticeSize c).2 *
          (getUnwrappedEndToEnd params.latticeSize c).2 := by
    intro c hc
    obtain ⟨hclen, hcne, hcch, hcmemf⟩ := hchains c hc
    have hnd : c.Nodup :=
      nodup_of_count_le_one c
        (fun p => le_trans (count_le_segCount hc p) (hle p))
    have hlen2 : 2 ≤ c.length := by
      rw [hclen]
      exact hN
    have hnz := unwrap_ne_zero hL (fun p hp => (hcmemf p hp).2) hnd hlen2
    have hor : (getUnwrappedEndToEnd params.latticeSize c).1 ≠ 0 ∨
        (getUnwrappedEndToEnd params.latticeSize c).2 ≠ 0 := by
      by_contra hcon
      push_neg at hcon
      exact hnz (Prod.ext hcon.1 hcon.2)
    have := one_le_sq_add_sq hor
    omega
  have hSpos : 0 < st.initialR0SquaredSum := by
    rw [hS, List.map_map]
    apply List.sum_pos
    · intro x hx
      obtain ⟨c, hc, rfl⟩ := List.mem_map.mp hx
      exact hpos c hc
    · simp only [ne_eq, List.map_eq_nil]
      exact hne
  have hlen0 : st.chains.length ≠ 0 := by
    simpa [List.length_eq_zero] using hne
  simp only [getStats]
  rw [hzip, List.map_map]
  have hsd : (st.chains.map ((fun q : PolymerChain × (Int × Int) =>
      (getUnwrappedEndToEnd st.params.latticeSize q.1).1 * q.2.1 +
      (getUnwrappedEndToEnd st.params.latticeSize q.1).2 * q.2.2) ∘
      (fun c => (c, getUnwrappedEndToEnd params.latticeSize c)))).sum =
      st.initialR0SquaredSum := by
    rw [hS, List.map_map]
    rfl
  rw [hsd]
  rw [if_neg hlen0]
  have hNpos : (0 : ℚ) < (st.chains.length : ℚ) := by
    exact_mod_cast Nat.pos_of_ne_zero hlen0
  have hq : ((st.initialR0SquaredSum : ℚ) / (st.chains.length : ℚ)) ≠ 0 := by
    apply div_ne_zero
    · exact_mod_cast hSpos.ne'
    · exact ne_of_gt hNpos
  rw [if_neg hq]
  exact div_self hq

/-- C5 amended witness: the obstacle-free one-chain configuration. -/
theorem claim_c5_witness :
    (1 ≤ (⟨4, 1, 2, 100, 0⟩ : SimulationParams).latticeSize) ∧
    (2 ≤ (⟨4, 1, 2, 100, 0⟩ : SimulationParams).chainLength) ∧
    ((reset ⟨4, 1, 2, 100, 0⟩ [0, 0, 0]).chains ≠ []) ∧
    (getStats (reset ⟨4, 1, 2, 100, 0⟩ [0, 0, 0])).autocorrelation = 1 := by
  have hre := reset_eq_withTarget ⟨4, 1, 2, 100, 0⟩ [0, 0, 0] 0
    (target_zero_of_conc_zero 4)
  have hne : (reset ⟨4, 1, 2, 100, 0⟩ [0, 0, 0]).chains ≠ [] := by
    rw [hre]
    decide
  exact ⟨by decide, by decide, hne,
    claim_c5_autocorrelation_one ⟨4, 1, 2, 100, 0⟩ [0, 0, 0] (by decide)
      (by decide) hne⟩

/-- C6 counterexample: requesting 2 chains on an obstacle-free 4-lattice
with a stream that exhausts the second slot's 200 growth attempts leaves a
population of 1 chain; after one sweep (2 attempts, both accepted) the
reported acceptance ratio is 2, exceeding 1. -/
theorem claim_c6_counterexample :
    1 < (getStats (stepSim (reset ⟨4, 2, 2, 100, 0⟩ (List.replicate 403 0))
      (List.replicate 6 0))).acceptanceRatio := by
  rw [reset_eq_withTarget ⟨4, 2, 2, 100, 0⟩ (List.replicate 403 0) 0
    (target_zero_of_conc_zero 4)]
  set st' := stepSim (resetWithTarget ⟨4, 2, 2, 100, 0⟩ 0
    (List.replicate 403 0)) (List.replicate 6 0) with hst'
  have h1 : st'.successfulMoves = 2 := by decide
  have h2 : st'.steps = 1 := by decide
  have h3 : st'.chains.length = 1 := by decide
  simp only [getStats, h1, h2, h3]
  norm_num

/-- C6 amended: in every reachable state the acceptance ratio is at least
0 and equals 0 before any attempts; it is at most 1 whenever the
population size equals max 1 numChains (in particular whenever every
requested chain grew successfully).  When growth exhaustion leaves fewer
chains than requested the reported ratio can exceed 1. -/
theorem claim_c6_acceptance_ratio_bounds (params : SimulationParams)
    (st : SimState) (hr : Reachable params st)
    (hL : 1 ≤ params.latticeSize) :
    0 ≤ (getStats st).acceptanceRatio ∧
    (st.steps = 0 → (getStats st).acceptanceRatio = 0) ∧
    (st.chains.length = max 1 params.numChains →
      (getStats st).acceptanceRatio ≤ 1) := by
  obtain ⟨hp, hpop, hcnt⟩ := reachable_inv hr hL
  simp only [getStats]
  refine ⟨?_, ?_, ?_⟩
  · by_cases hsteps : 0 < st.steps
    · rw [if_pos hsteps]
      apply div_nonneg (Nat.cast_nonneg _)
      apply mul_nonneg (Nat.cast_nonneg _)
      by_cases h0 : st.chains.length = 0
      · rw [if_pos h0]
        norm_num
      · rw [if_neg h0]
        exact Nat.cast_nonneg _
    · rw [if_neg hsteps]
  · intro h0
    rw [if_neg (by omega : ¬ 0 < st.steps)]
  · intro hfull
    by_cases hsteps : 0 < st.steps
    · rw [if_pos hsteps]
      have hlen0 : st.chains.length ≠ 0 := by
        rw [hfull]
        omega
      rw [if_neg hlen0]
      have hcnt2 : st.successfulMoves ≤ st.steps * st.chains.length := by
        rw [hfull, ← hp]
        exact hcnt
      rw [div_le_one (by
        have hs1 : (1 : ℚ) ≤ (st.steps : ℚ) := by exact_mod_cast hsteps
        have hl1 : (1 : ℚ) ≤ (st.chains.length : ℚ) := by
          exact_mod_cast Nat.pos_of_ne_zero hlen0
        nlinarith)]
      calc (st.successfulMoves : ℚ) ≤ (st.steps * st.chains.length : Nat) := by
            exact_mod_cast hcnt2
        _ = (st.steps : ℚ) * (st.chains.length : ℚ) := by push_cast; ring
    · rw [if_neg hsteps]
      norm_num

/-- C6 amended witness: the full-population one-chain configuration after
initialization. -/
theorem claim_c6_witness :
    (1 ≤ (⟨4, 1, 2, 100, 0⟩ : SimulationParams).latticeSize) ∧
    ((reset ⟨4, 1, 2, 100, 0⟩ [0, 0, 0]).chains.length =
      max 1 (⟨4, 1, 2, 100, 0⟩ : SimulationParams).numChains) ∧
    0 ≤ (getStats (reset ⟨4, 1, 2, 100, 0⟩ [0, 0, 0])).acceptanceRatio ∧
    ((reset ⟨4, 1, 2, 100, 0⟩ [0, 0, 0]).steps = 0 →
      (getStats (reset ⟨4, 1, 2, 100, 0⟩ [0, 0, 0])).acceptanceRatio = 0) ∧
    (getStats (reset ⟨4, 1, 2, 100, 0⟩ [0, 0, 0])).acceptanceRatio ≤ 1 := by
  have hre := reset_eq_withTarget ⟨4, 1, 2, 100, 0⟩ [0, 0, 0] 0
    (target_zero_of_conc_zero 4)
  have hfull : (reset ⟨4, 1, 2, 100, 0⟩ [0, 0, 0]).chains.length =
      max 1 (⟨4, 1, 2, 100, 0⟩ : SimulationParams).numChains := by
    rw [hre]
    decide
  have h := claim_c6_acceptance_ratio_bounds ⟨4, 1, 2, 100, 0⟩ _
    (Reachable.init [0, 0, 0]) (by decide)
  exact ⟨by decide, hfull, h.1, h.2.1, h.2.2 hfull⟩

theorem getElem?_set_of_lt {α : Type} (l : List α) (i : Nat) (b : α)
    (h : i < l.length) : (l.set i b)[i]? = some b := by
  rw [List.getElem?_set_self']
  rw [List.getElem?_eq_getElem h]
  rfl

theorem reptate_cons_accept (st : SimState) (r1 r2 r3 : Nat)
    (rest : List Nat) (hlen : st.chains.length ≠ 0)
    (hvm : (reptMoves st r1 r2).length ≠ 0) :
    reptate st (r1 :: r2 :: r3 :: rest) =
      ({ st with
          chains := st.chains.set (reptCi st r1)
            (if r2 % 2 = 0
             then ((reptMoves st r1 r2).getD
                (r3 % (reptMoves st r1 r2).length) (0, 0) ::
                reptChain st r1).dropLast
             else (reptChain st r1 ++
                [(reptMoves st r1 r2).getD
                  (r3 % (reptMoves st r1 r2).length) (0, 0)]).tail)
          occupied := incrementOccupancy
            (decrementOccupancy st.occupied (reptVac st r1 r2))
            ((reptMoves st r1 r2).getD
              (r3 % (reptMoves st r1 r2).length) (0, 0))
          successfulMoves := st.successfulMoves + 1 }, rest) := by
  simp only [reptMoves, reptAct, reptVac, reptChain, reptCi] at hvm ⊢
  simp only [reptate, draw]
  rw [if_neg hlen, if_neg hlen, if_neg (by decide : ¬(2 : Nat) = 0),
    if_neg hvm, if_neg hvm]

/-- C10 (implicit): in every reachable state, a reptate attempt whose chain
draw selects a chain of length exactly 2 always finds a valid destination:
the vacating end's own site is adjacent to the active end, is not an
obstacle, and has ledger count exactly 1, so the attempt is never rejected
and the success counter increments for every destination draw; moreover
some destination draw selects exactly the vacating site, and the resulting
move reverses the chain in place while still counting as a success. -/
theorem claim_c10_length_two_reptate (params : SimulationParams)
    (st : SimState) (hr : Reachable params st)
    (hL : 1 ≤ params.latticeSize) (i : Nat) (c : PolymerChain)
    (hc : st.chains[i]? = some c) (hc2 : c.length = 2) :
    ∀ (r1 r2 r3 : Nat) (rest : List Nat), r1 % st.chains.length = i →
      ((reptate st (r1 :: r2 :: r3 :: rest)).1.successfulMoves =
        st.successfulMoves + 1) ∧
      (reptVac st r1 r2 ∈ getNeighbors params.latticeSize (reptAct st r1 r2) ∧
       reptVac st r1 r2 ∉ st.obstacles ∧
       occGet st.occupied (reptVac st r1 r2) = 1 ∧
       isValidDest st.obstacles st.occupied (reptVac st r1 r2)
         (reptVac st r1 r2) = true) ∧
      (∃ m : Nat, (reptate st (r1 :: r2 :: m :: rest)).1.chains[i]? =
          some c.reverse ∧
        (reptate st (r1 :: r2 :: m :: rest)).1.successfulMoves =
          st.successfulMoves + 1) := by
  obtain ⟨hp, ⟨⟨hwf, hagree, hle, hchains⟩, hcnt⟩⟩ := reachable_inv hr hL
  intro r1 r2 r3 rest hr1
  obtain ⟨hi_lt, hgi⟩ := List.getElem?_eq_some.mp hc
  have hlen0 : st.chains.length ≠ 0 := by omega
  have hci : reptCi st r1 = i := hr1
  have hcd : reptChain st r1 = c := by
    rw [reptChain, hci, List.getD_eq_getElem _ _ hi_lt]
    exact hgi
  obtain ⟨a, b, rfl⟩ : ∃ a b, c = [a, b] := by
    cases c with
    | nil => simp at hc2
    | cons a t =>
      cases t with
      | nil => simp at hc2
      | cons b u =>
        cases u with
        | nil => exact ⟨a, b, rfl⟩
        | cons x v => simp at hc2
  have hc_mem : [a, b] ∈ st.chains := by
    rw [← hgi]
    exact List.getElem_mem hi_lt
  obtain ⟨hclen, hcne, hcch, hcmemf⟩ := hchains _ hc_mem
  have hab : b ∈ getNeighbors st.params.latticeSize a := by
    rcases List.chain'_cons'.mp hcch with ⟨h1, _⟩
    exact h1 b rfl
  have ha_co := (hcmemf a (by simp)).2
  have hb_co := (hcmemf b (by simp)).2
  have ha_ob := (hcmemf a (by simp)).1
  have hb_ob := (hcmemf b (by simp)).1
  have hL1 : 1 ≤ st.params.latticeSize := by rw [hp]; exact hL
  have hba : a ∈ getNeighbors st.params.latticeSize b :=
    getNeighbors_symm hL1 ha_co.1 ha_co.2 hab
  have hocc_a : occGet st.occupied a = 1 := by
    rw [hagree]
    have h1 : 1 ≤ List.count a [a, b] :=
      List.count_pos_iff.mpr (by simp)
    have h2 := count_le_segCount hc_mem a
    have h3 := hle a
    omega
  have hocc_b : occGet st.occupied b = 1 := by
    rw [hagree]
    have h1 : 1 ≤ List.count b [a, b] :=
      List.count_pos_iff.mpr (by simp)
    have h2 := count_le_segCount hc_mem b
    have h3 := hle b
    omega
  -- identify the active and vacating ends in both coin cases
  by_cases hcoin : r2 % 2 = 0
  · have hact : reptAct st r1 r2 = a := by
      rw [reptAct, if_pos hcoin, hcd]
      rfl
    have hvac : reptVac st r1 r2 = b := by
      rw [reptVac, if_pos hcoin, hcd]
      rfl
    have hvalid : isValidDest st.obstacles st.occupied b b = true :=
      (isValidDest_true_iff _ _ _ _).mpr
        ⟨hb_ob, Or.inr ⟨rfl, hocc_b⟩⟩
    have hbmem : b ∈ reptMoves st r1 r2 := by
      rw [reptMoves, hact, hvac]
      exact List.mem_filter.mpr ⟨hab, hvalid⟩
    have hvm : (reptMoves st r1 r2).length ≠ 0 := by
      have := List.length_pos.mpr (List.ne_nil_of_mem hbmem)
      omega
    refine ⟨?_, ?_, ?_⟩
    · rw [reptate_cons_accept st r1 r2 r3 rest hlen0 hvm]
    · rw [hact, hvac, ← hp]
      exact ⟨hab, hb_ob, hocc_b, hvalid⟩
    · obtain ⟨m0, hm0_lt, hm0⟩ := List.mem_iff_getElem.mp hbmem
      refine ⟨m0, ?_, ?_⟩
      · rw [reptate_cons_accept st r1 r2 m0 rest hlen0 hvm]
        have hnext : (reptMoves st r1 r2).getD
            (m0 % (reptMoves st r1 r2).length) (0, 0) = b := by
          rw [Nat.mod_eq_of_lt hm0_lt,
            List.getD_eq_getElem _ _ hm0_lt]
          exact hm0
        simp only [if_pos hcoin, hnext, hcd, hci]
        have hdrop : (b :: [a, b]).dropLast = [b, a] := rfl
        rw [hdrop]
        have hrev : ([a, b] : PolymerChain).reverse = [b, a] := rfl
        rw [hrev]
        exact getElem?_set_of_lt st.chains i [b, a] hi_lt
      · rw [reptate_cons_accept st r1 r2 m0 rest hlen0 hvm]
  · have hact : reptAct st r1 r2 = b := by
      rw [reptAct, if_neg hcoin, hcd]
      rfl
    have hvac : reptVac st r1 r2 = a := by
      rw [reptVac, if_neg hcoin, hcd]
      rfl
    have hvalid : isValidDest st.obstacles st.occupied a a = true :=
      (isValidDest_true_iff _ _ _ _).mpr
        ⟨ha_ob, Or.inr ⟨rfl, hocc_a⟩⟩
    have hamem : a ∈ reptMoves st r1 r2 := by
      rw [reptMoves, hact, hvac]
      exact List.mem_filter.mpr ⟨hba, hvalid⟩
    have hvm : (reptMoves st r1 r2).length ≠ 0 := by
      have := List.length_pos.mpr (List.ne_nil_of_mem hamem)
      omega
    refine ⟨?_, ?_, ?_⟩
    · rw [reptate_cons_accept st r1 r2 r3 rest hlen0 hvm]
    · rw [hact, hvac, ← hp]
      exact ⟨hba, ha_ob, hocc_a, hvalid⟩
    · obtain ⟨m0, hm0_lt, hm0⟩ := List.mem_iff_getElem.mp hamem
      refine ⟨m0, ?_, ?_⟩
      · rw [reptate_cons_accept st r1 r2 m0 rest hlen0 hvm]
        have hnext : (reptMoves st r1 r2).getD
            (m0 % (reptMoves st r1 r2).length) (0, 0) = a := by
          rw [Nat.mod_eq_of_lt hm0_lt,
            List.getD_eq_getElem _ _ hm0_lt]
          exact hm0
        simp only [if_neg hcoin, hnext, hcd, hci]
        have htail : (([a, b] : PolymerChain) ++ [a]).tail = [b, a] := rfl
        rw [htail]
        have hrev : ([a, b] : PolymerChain).reverse = [b, a] := rfl
        rw [hrev]
        exact getElem?_set_of_lt st.chains i [b, a] hi_lt
      · rw [reptate_cons_accept st r1 r2 m0 rest hlen0 hvm]

/-- C10 witness: the freshly initialized single 2-chain state, first
attempt draws. -/
theorem claim_c10_witness :
    (1 ≤ (⟨4, 1, 2, 100, 0⟩ : SimulationParams).latticeSize) ∧
    ((reset ⟨4, 1, 2, 100, 0⟩ [0, 0, 0]).chains[0]? =
      some [((0, 0) : Point), (1, 0)]) ∧
    ((reptate (reset ⟨4, 1, 2, 100, 0⟩ [0, 0, 0])
        [0, 0, 0, 5]).1.successfulMoves =
      (reset ⟨4, 1, 2, 100, 0⟩ [0, 0, 0]).successfulMoves + 1) ∧
    (∃ m : Nat, (reptate (reset ⟨4, 1, 2, 100, 0⟩ [0, 0, 0])
        [0, 0, m, 5]).1.chains[0]? =
        some ([((0, 0) : Point), (1, 0)]).reverse ∧
      (reptate (reset ⟨4, 1, 2, 100, 0⟩ [0, 0, 0])
        [0, 0, m, 5]).1.successfulMoves =
        (reset ⟨4, 1, 2, 100, 0⟩ [0, 0, 0]).successfulMoves + 1) := by
  have hre := reset_eq_withTarget ⟨4, 1, 2, 100, 0⟩ [0, 0, 0] 0
    (target_zero_of_conc_zero 4)
  have hc : (reset ⟨4, 1, 2, 100, 0⟩ [0, 0, 0]).chains[0]? =
      some [((0, 0) : Point), (1, 0)] := by
    rw [hre]
    decide
  have h := claim_c10_length_two_reptate ⟨4, 1, 2, 100, 0⟩ _
    (Reachable.init [0, 0, 0]) (by decide) 0 [((0, 0) : Point), (1, 0)] hc
    (by decide) 0 0 0 [5] (by rw [hre]; decide)
  exact ⟨by decide, hc, h.1, h.2.2⟩

end Claims

end ReptationMC
